import Mathlib

/-!
Verification of `moldesign/utils/json_extension.py`.

The file under verification is a thin wrapper over the Python standard
`json` library:

* `class JsonEncoder(json.JSONEncoder)` overrides `default(self, obj)`:
  if `obj` has a `to_json` attribute it returns `obj.to_json()`,
  otherwise it returns `obj` unchanged (it does *not* call the base
  implementation, which would raise the standard TypeError).
* `json_dump(*args, **kwargs)` = `json.dump(*args, cls=JsonEncoder, **kwargs)`
* `json_dumps(*args, **kwargs)` = `json.dumps(*args, cls=JsonEncoder, **kwargs)`

The embedding models the dynamic Python values being serialized, the
serialization loop of the standard library (`json.encoder._make_iterencode`,
whose observable output the C accelerator matches, including the
circular-reference markers consulted on the `default` path), the
keyword-option surface of `json.dump`/`json.dumps`, and the two wrapper
functions.  Machine floats are not modelled (no claim mentions them);
dictionary keys are modelled as text, matching the spec's "mapping with
text keys".  Recursion of the interpreter is modelled by an explicit
`fuel` budget threaded through every recursive call; exhausting it is
`RecursionError`.  The model charges the budget once per recursive step
(including per list element), which is coarser than CPython's exact
stack accounting but agrees with it on everything the claims need: for
finite input with terminating conversion chains some finite budget
suffices and the result is then independent of the budget, while a
divergent conversion chain exhausts every budget.
-/

/-- Python values in the dynamic value model relevant to the serializer.
`pyobj id` is an opaque (non natively serializable) object; its identity
`id` is used to look up its `to_json` attribute in an environment and
feeds the circular-reference markers of the standard encoder. -/
inductive PyVal where
  | pynone : PyVal
  | pybool (b : Bool) : PyVal
  | pyint (n : Int) : PyVal
  | pystr (s : String) : PyVal
  | pylist (xs : List PyVal) : PyVal
  | pydict (kvs : List (String × PyVal)) : PyVal
  | pyobj (id : Nat) : PyVal
deriving Repr

/-- Python exceptions that can escape the serialization entry points. -/
inductive PyErr where
  | typeErrorNotSerializable (id : Nat) : PyErr
  | typeErrorNotCallable (id : Nat) : PyErr
  | typeErrorDuplicateKeywordCls : PyErr
  | valueErrorCircular : PyErr
  | recursionError : PyErr
  | raised (msg : String) : PyErr
deriving Repr, DecidableEq

/-- The `to_json` attribute surface of an opaque object: absent, present
but not callable, or callable with a fixed outcome (a returned value or
a raised exception). -/
inductive ToJsonAttr where
  | absent : ToJsonAttr
  | noncallable : ToJsonAttr
  | callable (result : Except PyErr PyVal) : ToJsonAttr

/-- An object environment: the `to_json` attribute of each object id. -/
def Env : Type := Nat → ToJsonAttr

/-- Indent argument of `json.dumps`: a count of spaces or a string. -/
inductive Indent where
  | ofNat (n : Nat) : Indent
  | ofStr (s : String) : Indent
deriving Repr, DecidableEq

/-- The encoder classes present in the source file: the standard-library
base class and the wrapper's subclass. -/
inductive EncoderCls where
  | JSONEncoder : EncoderCls
  | JsonEncoder : EncoderCls
deriving Repr, DecidableEq

/-- Keyword arguments accepted by `json.dump`/`json.dumps` (all are
keyword-only in Python 3); `none` means the keyword was not passed.  The
`default` callable keyword is not modelled separately: its effect is an
encoder-hook override, covered by the `cls` choice. -/
structure Kwargs where
  skipkeys : Option Bool := none
  ensure_ascii : Option Bool := none
  check_circular : Option Bool := none
  allow_nan : Option Bool := none
  cls : Option EncoderCls := none
  indent : Option Indent := none
  separators : Option (String × String) := none
  sort_keys : Option Bool := none
deriving Repr, DecidableEq

/-- Resolved encoder configuration, mirroring `json.JSONEncoder.__init__`:
separator defaults are `', '` and `': '`; when `separators` is given both
are taken from it; otherwise when `indent` is in use the item separator
drops its trailing space; an integer indent means that many spaces. -/
structure Opts where
  skipkeys : Bool
  ensure_ascii : Bool
  check_circular : Bool
  allow_nan : Bool
  sort_keys : Bool
  indent : Option (List Char)
  itemSeparator : List Char
  keySeparator : List Char
deriving Repr, DecidableEq

def resolveOpts (k : Kwargs) : Opts :=
  let ind : Option (List Char) :=
    k.indent.map fun i => match i with
      | Indent.ofNat n => List.replicate n ' '
      | Indent.ofStr s => s.data
  { skipkeys := k.skipkeys.getD false
    ensure_ascii := k.ensure_ascii.getD true
    check_circular := k.check_circular.getD true
    allow_nan := k.allow_nan.getD true
    sort_keys := k.sort_keys.getD false
    indent := ind
    itemSeparator :=
      match k.separators with
      | some p => p.1.data
      | none => if ind.isSome then [','] else [',', ' ']
    keySeparator :=
      match k.separators with
      | some p => p.2.data
      | none => [':', ' '] }

/-- Fueled worker for the decimal digits of a natural number, least
significant first (the repeated div-10 of Python's integer repr); the
fuel only serves structural termination and `natStrRev` always passes
enough. -/
def natStrRevAux : Nat → Nat → List Char
  | 0, _ => []
  | f + 1, n =>
    if n < 10 then [Char.ofNat (48 + n)]
    else Char.ofNat (48 + n % 10) :: natStrRevAux f (n / 10)

def natStrRev (n : Nat) : List Char := natStrRevAux (n + 1) n

/-- Decimal representation of a natural number, as `str(int)` yields. -/
def natStr (n : Nat) : List Char := (natStrRev n).reverse

/-- `str(int)` for Python integers (`int.__repr__`, used by the encoder
as `_intstr`). -/
def intStr : Int → List Char
  | Int.ofNat n => natStr n
  | Int.negSucc m => '-' :: natStr (m + 1)

/-- Four lowercase hex digits, as Python's `'\\u%04x'` formatting emits. -/
def hexDigit (n : Nat) : Char :=
  if n < 10 then Char.ofNat (48 + n) else Char.ofNat (87 + n)

def hex4 (n : Nat) : List Char :=
  [hexDigit (n / 4096 % 16), hexDigit (n / 256 % 16),
   hexDigit (n / 16 % 16), hexDigit (n % 16)]

/-- The `ESCAPE_DCT` table of `json.encoder`: two-character escapes for
backslash, quote and the five named control characters, `\u00xx`
otherwise (callers only consult it for those and for chars below 0x20). -/
def escapeDct (c : Char) : List Char :=
  if c = '\\' then ['\\', '\\']
  else if c = '"' then ['\\', '"']
  else if c = '\x08' then ['\\', 'b']
  else if c = '\x0c' then ['\\', 'f']
  else if c = '\n' then ['\\', 'n']
  else if c = '\r' then ['\\', 'r']
  else if c = '\t' then ['\\', 't']
  else '\\' :: 'u' :: hex4 c.toNat

/-- Concatenated image of a character list under `f`. -/
def concatMap (f : Char → List Char) : List Char → List Char
  | [] => []
  | c :: cs => f c ++ concatMap f cs

/-- Per-character action of `json.encoder.py_encode_basestring`: the
regex `ESCAPE` matches backslash, quote and controls below 0x20, which
are replaced from the table; everything else passes through. -/
def escapeCharRaw (c : Char) : List Char :=
  if c = '\\' ∨ c = '"' ∨ c.toNat < 0x20 then escapeDct c else [c]

/-- Per-character action of `json.encoder.py_encode_basestring_ascii`:
the regex `ESCAPE_ASCII` matches backslash, quote and anything outside
the printable ASCII range; table escapes are preferred, then `\uxxxx`,
with a surrogate pair for astral characters. -/
def escapeCharAscii (c : Char) : List Char :=
  if c = '\\' ∨ c = '"' then escapeDct c
  else if 0x20 ≤ c.toNat ∧ c.toNat ≤ 0x7e then [c]
  else if c.toNat < 0x20 then escapeDct c
  else if c.toNat < 0x10000 then '\\' :: 'u' :: hex4 c.toNat
  else
    ('\\' :: 'u' :: hex4 (0xd800 ||| ((c.toNat - 0x10000) >>> 10 &&& 0x3ff))) ++
      ('\\' :: 'u' :: hex4 (0xdc00 ||| ((c.toNat - 0x10000) &&& 0x3ff)))

/-- JSON string literal for `s`, per the configured `_encoder`. -/
def encodeBasestring (ensureAscii : Bool) (s : String) : List Char :=
  '"' :: concatMap (if ensureAscii then escapeCharAscii else escapeCharRaw) s.data ++ ['"']

/-- Join pieces with a separator between consecutive pieces. -/
def joinSep (sep : List Char) : List (List Char) → List Char
  | [] => []
  | [x] => x
  | x :: y :: xs => x ++ sep ++ joinSep sep (y :: xs)

/-- Repeat a character list `n` times (Python `s * n`). -/
def repList : Nat → List Char → List Char
  | 0, _ => []
  | n + 1, s => s ++ repList n s

/-- Model of Python `sorted(dct.items())` used by `sort_keys=True`:
entries ordered by key (keys of a Python dict are unique, so the tuple
comparison never reaches the values). -/
def sortEntries (kvs : List (String × PyVal)) : List (String × PyVal) :=
  List.insertionSort (fun a b : String × PyVal => a.1 ≤ b.1) kvs

/-- The `default` method of the standard `json.JSONEncoder`: it always
raises `TypeError: Object of type ... is not JSON serializable`. -/
def JSONEncoder.defaultHook (env : Env) (id : Nat) : Except PyErr PyVal :=
  .error (.typeErrorNotSerializable id)

/-- The `default` method of the wrapper's `JsonEncoder`
(`json_extension.py` lines 21-24): when the object has a `to_json`
attribute the result of calling it is substituted (a non-callable
attribute makes the call raise TypeError, an exception raised inside
`to_json` propagates); when the attribute is absent the object itself is
returned unchanged. -/
def JsonEncoder.defaultHook (env : Env) (id : Nat) : Except PyErr PyVal :=
  match env id with
  | .absent => .ok (.pyobj id)
  | .noncallable => .error (.typeErrorNotCallable id)
  | .callable r => r

def clsHook : EncoderCls → Env → Nat → Except PyErr PyVal
  | .JSONEncoder => JSONEncoder.defaultHook
  | .JsonEncoder => JsonEncoder.defaultHook

/-- Newline-plus-indent prefix written before items at nesting level
`lvl` (the `newline_indent` of `_make_iterencode`); empty when `indent`
is not in use. -/
def nlIndent (opts : Opts) (lvl : Nat) : List Char :=
  match opts.indent with
  | none => []
  | some ind => '\n' :: repList lvl ind

mutual

/-- The serialization loop of `json.encoder._make_iterencode` (joined to
one character list; `json.dumps` joins the yielded chunks, `json.dump`
writes them, with identical concatenation).  `hook` is the bound
`default` method of the encoder instance; `ms` is the set of object ids
on the current `default` chain (the `markers` dict; containers cannot
alias in this value model, so their marker entries, added and removed
around each container, can never be hit and are omitted); `fuel` is the
interpreter recursion budget. -/
def encodeVal (hook : Nat → Except PyErr PyVal) (opts : Opts) :
    Nat → List Nat → Nat → PyVal → Except PyErr (List Char)
  | 0, _, _, _ => .error .recursionError
  | _ + 1, _, _, .pynone => .ok ['n', 'u', 'l', 'l']
  | _ + 1, _, _, .pybool true => .ok ['t', 'r', 'u', 'e']
  | _ + 1, _, _, .pybool false => .ok ['f', 'a', 'l', 's', 'e']
  | _ + 1, _, _, .pyint n => .ok (intStr n)
  | _ + 1, _, _, .pystr s => .ok (encodeBasestring opts.ensure_ascii s)
  | fuel + 1, ms, lvl, .pylist xs =>
    if xs.isEmpty then .ok ['[', ']']
    else
      let lvl' := if opts.indent.isSome then lvl + 1 else lvl
      match encodeList hook opts fuel ms lvl' xs with
      | .error e => .error e
      | .ok parts =>
        .ok ('[' :: nlIndent opts lvl' ++
          joinSep (opts.itemSeparator ++ nlIndent opts lvl') parts ++
          nlIndent opts lvl ++ [']'])
  | fuel + 1, ms, lvl, .pydict kvs =>
    if kvs.isEmpty then .ok ['\x7b', '\x7d']
    else
      let lvl' := if opts.indent.isSome then lvl + 1 else lvl
      let items := if opts.sort_keys then sortEntries kvs else kvs
      match encodeDict hook opts fuel ms lvl' items with
      | .error e => .error e
      | .ok parts =>
        .ok ('\x7b' :: nlIndent opts lvl' ++
          joinSep (opts.itemSeparator ++ nlIndent opts lvl') parts ++
          nlIndent opts lvl ++ ['\x7d'])
  | fuel + 1, ms, lvl, .pyobj id =>
    if opts.check_circular && ms.contains id then .error .valueErrorCircular
    else
      match hook id with
      | .error e => .error e
      | .ok newv =>
        encodeVal hook opts fuel (if opts.check_circular then id :: ms else ms) lvl newv

/-- Pieces for the elements of a list, in order. -/
def encodeList (hook : Nat → Except PyErr PyVal) (opts : Opts) :
    Nat → List Nat → Nat → List PyVal → Except PyErr (List (List Char))
  | 0, _, _, _ => .error .recursionError
  | _ + 1, _, _, [] => .ok []
  | fuel + 1, ms, lvl, x :: xs =>
    match encodeVal hook opts fuel ms lvl x with
    | .error e => .error e
    | .ok c =>
      match encodeList hook opts fuel ms lvl xs with
      | .error e => .error e
      | .ok cs => .ok (c :: cs)

/-- Pieces for the entries of a dict: encoded key, key separator,
encoded value. -/
def encodeDict (hook : Nat → Except PyErr PyVal) (opts : Opts) :
    Nat → List Nat → Nat → List (String × PyVal) → Except PyErr (List (List Char))
  | 0, _, _, _ => .error .recursionError
  | _ + 1, _, _, [] => .ok []
  | fuel + 1, ms, lvl, (k, v) :: kvs =>
    match encodeVal hook opts fuel ms lvl v with
    | .error e => .error e
    | .ok c =>
      match encodeDict hook opts fuel ms lvl kvs with
      | .error e => .error e
      | .ok cs =>
        .ok ((encodeBasestring opts.ensure_ascii k ++ opts.keySeparator ++ c) :: cs)

end

namespace json

/-- `json.dumps(o, **k)`: build the configured encoder (class taken from
the `cls` keyword, the standard `JSONEncoder` when absent) and return
the joined chunks. -/
def dumps (env : Env) (fuel : Nat) (o : PyVal) (k : Kwargs) : Except PyErr String :=
  match encodeVal (clsHook (k.cls.getD .JSONEncoder) env) (resolveOpts k) fuel [] 0 o with
  | .error e => .error e
  | .ok cs => .ok (String.mk cs)

/-- `json.dump(o, fp, **k)`: same encoder, chunks written to the sink
`fp` (modelled as the list of strings written so far; the concatenation
of the writes is exactly the `dumps` string). -/
def dump (env : Env) (fuel : Nat) (o : PyVal) (fp : List String) (k : Kwargs) :
    Except PyErr (List String) :=
  match encodeVal (clsHook (k.cls.getD .JSONEncoder) env) (resolveOpts k) fuel [] 0 o with
  | .error e => .error e
  | .ok cs => .ok (fp ++ [String.mk cs])

end json

/-- `json_dumps(*args, **kwargs) = json.dumps(*args, cls=JsonEncoder, **kwargs)`
(`json_extension.py` lines 32-34).  Passing `cls` among the keyword
arguments collides with the hardwired `cls=JsonEncoder` and raises
`TypeError: got multiple values for keyword argument 'cls'` before the
library is entered. -/
def json_dumps (env : Env) (fuel : Nat) (o : PyVal) (k : Kwargs) : Except PyErr String :=
  if k.cls.isSome then .error .typeErrorDuplicateKeywordCls
  else json.dumps env fuel o { k with cls := some .JsonEncoder }

/-- `json_dump(*args, **kwargs) = json.dump(*args, cls=JsonEncoder, **kwargs)`
(`json_extension.py` lines 27-29), with the same duplicate-`cls`
behavior. -/
def json_dump (env : Env) (fuel : Nat) (o : PyVal) (fp : List String) (k : Kwargs) :
    Except PyErr (List String) :=
  if k.cls.isSome then .error .typeErrorDuplicateKeywordCls
  else json.dump env fuel o fp { k with cls := some .JsonEncoder }

/-! ### A model of the standard JSON parser (`json.loads`)

The round-trip claim compares the wrapper's output against `parse`, the
standard JSON parse.  The parser below models `json.loads` on the value
domain of `PyVal`: literals, integers, strings (with the escape and
surrogate-pair decoding of `json.scanner.py_scanstring`), arrays and
objects (with last-duplicate-wins key semantics of a Python dict built
incrementally).  Model restrictions, all outside anything the encoder
emits: fractions and exponents (machine floats) are rejected, a leading
zero is not rejected, and a lone surrogate escape is rejected rather
than decoded to a surrogate (Lean characters cannot carry one).  A fuel
budget, decremented at every recursive call, serves structural
termination; `pyJsonLoads` passes more than the input length, which a
parse can never exhaust (each step past one fuel unit consumes input).
-/

/-- JSON whitespace accepted between tokens (`json.decoder.WHITESPACE`). -/
def isJsonWs (c : Char) : Bool :=
  c = ' ' || c = '\t' || c = '\n' || c = '\r'

def skipWs : List Char → List Char
  | [] => []
  | c :: cs => if isJsonWs c then skipWs cs else c :: cs

def hexVal (c : Char) : Option Nat :=
  if '0' ≤ c ∧ c ≤ '9' then some (c.toNat - 48)
  else if 'a' ≤ c ∧ c ≤ 'f' then some (c.toNat - 87)
  else if 'A' ≤ c ∧ c ≤ 'F' then some (c.toNat - 55)
  else none

def parseHex4 : List Char → Option (Nat × List Char)
  | a :: b :: c :: d :: r =>
    match hexVal a, hexVal b, hexVal c, hexVal d with
    | some x, some y, some z, some w => some (((x * 16 + y) * 16 + z) * 16 + w, r)
    | _, _, _, _ => none
  | _ => none

/-- Maximal run of decimal digits, accumulating onto `acc`. -/
def parseDigits (acc : Nat) : List Char → Nat × List Char
  | [] => (acc, [])
  | c :: cs =>
    if c.isDigit then parseDigits (acc * 10 + (c.toNat - 48)) cs else (acc, c :: cs)

/-- Unsigned integer part of a JSON number; a following fraction or
exponent would denote a float, which the value model excludes. -/
def parseNatNum : List Char → Option (Nat × List Char)
  | [] => none
  | c :: cs =>
    if c.isDigit then
      let p := parseDigits (c.toNat - 48) cs
      match p.2 with
      | [] => some p
      | d :: _ => if d = '.' ∨ d = 'e' ∨ d = 'E' then none else some p
    else none

def parseNumber : List Char → Option (PyVal × List Char)
  | [] => none
  | c :: cs =>
    if c = '-' then
      match parseNatNum cs with
      | some (n, r) => some (.pyint (-(n : Int)), r)
      | none => none
    else
      match parseNatNum (c :: cs) with
      | some (n, r) => some (.pyint (n : Int), r)
      | none => none

/-- Incremental construction of a Python dict from parsed key/value
pairs: a repeated key overwrites the value in place, a new key appends. -/
def insertPair (ps : List (String × PyVal)) (kv : String × PyVal) :
    List (String × PyVal) :=
  if ps.any fun p => p.1 = kv.1 then
    ps.map fun p => if p.1 = kv.1 then (p.1, kv.2) else p
  else ps ++ [kv]

mutual

/-- One JSON value at the head of the input (no leading whitespace),
per `json.scanner.py_make_scanner`. -/
def parseValue : Nat → List Char → Option (PyVal × List Char)
  | 0, _ => none
  | _ + 1, [] => none
  | fuel + 1, c :: r =>
    if c = 'n' then
      match r with
      | 'u' :: 'l' :: 'l' :: r2 => some (.pynone, r2)
      | _ => none
    else if c = 't' then
      match r with
      | 'r' :: 'u' :: 'e' :: r2 => some (.pybool true, r2)
      | _ => none
    else if c = 'f' then
      match r with
      | 'a' :: 'l' :: 's' :: 'e' :: r2 => some (.pybool false, r2)
      | _ => none
    else if c = '"' then
      match parseStringBody fuel r with
      | some (content, r2) => some (.pystr (String.mk content), r2)
      | none => none
    else if c = '[' then
      match skipWs r with
      | [] => none
      | c2 :: r2 =>
        if c2 = ']' then some (.pylist [], r2)
        else
          match parseArrayItems fuel (c2 :: r2) with
          | some (xs, r3) => some (.pylist xs, r3)
          | none => none
    else if c = '\x7b' then
      match skipWs r with
      | [] => none
      | c2 :: r2 =>
        if c2 = '\x7d' then some (.pydict [], r2)
        else
          match parseObjectItems fuel (c2 :: r2) with
          | some (kvs, r3) => some (.pydict (kvs.foldl insertPair []), r3)
          | none => none
    else if c.isDigit || c = '-' then parseNumber (c :: r)
    else none

/-- Elements of a non-empty array, positioned at the first element. -/
def parseArrayItems : Nat → List Char → Option (List PyVal × List Char)
  | 0, _ => none
  | fuel + 1, cs =>
    match parseValue fuel cs with
    | none => none
    | some (v, r) =>
      match skipWs r with
      | ',' :: r2 =>
        (match parseArrayItems fuel (skipWs r2) with
         | some (vs, r3) => some (v :: vs, r3)
         | none => none)
      | ']' :: r2 => some ([v], r2)
      | _ => none

/-- Entries of a non-empty object, positioned at the first key quote. -/
def parseObjectItems : Nat → List Char → Option (List (String × PyVal) × List Char)
  | 0, _ => none
  | fuel + 1, '"' :: cs =>
    (match parseStringBody fuel cs with
     | none => none
     | some (kchars, r1) =>
       match skipWs r1 with
       | ':' :: r2 =>
         (match parseValue fuel (skipWs r2) with
          | none => none
          | some (v, r3) =>
            match skipWs r3 with
            | ',' :: r4 =>
              (match parseObjectItems fuel (skipWs r4) with
               | some (kvs, r5) => some ((String.mk kchars, v) :: kvs, r5)
               | none => none)
            | '\x7d' :: r4 => some ([(String.mk kchars, v)], r4)
            | _ => none)
       | _ => none)
  | _ + 1, _ => none

/-- Body of a string literal after the opening quote, per
`json.scanner.py_scanstring` in strict mode: raw characters up to the
closing quote (controls below 0x20 rejected), backslash escapes, and
`\uXXXX` with surrogate-pair combination. -/
def parseStringBody : Nat → List Char → Option (List Char × List Char)
  | 0, _ => none
  | _ + 1, [] => none
  | fuel + 1, c :: r =>
    if c = '"' then some ([], r)
    else if c = '\\' then
      match r with
      | [] => none
      | e :: r2 =>
        if e = 'u' then
          match parseHex4 r2 with
          | none => none
          | some (n1, r3) =>
            if 0xd800 ≤ n1 ∧ n1 ≤ 0xdbff then
              match r3 with
              | '\\' :: 'u' :: r4 =>
                (match parseHex4 r4 with
                 | none => none
                 | some (n2, r5) =>
                   if 0xdc00 ≤ n2 ∧ n2 ≤ 0xdfff then
                     match parseStringBody fuel r5 with
                     | some (content, r6) =>
                       some (Char.ofNat (0x10000 + (((n1 - 0xd800) <<< 10) ||| (n2 - 0xdc00))) :: content, r6)
                     | none => none
                   else none)
              | _ => none
            else if 0xdc00 ≤ n1 ∧ n1 ≤ 0xdfff then none
            else
              match parseStringBody fuel r3 with
              | some (content, r4) => some (Char.ofNat n1 :: content, r4)
              | none => none
        else
          match parseStringBody fuel r2 with
          | none => none
          | some (content, r3) =>
            if e = '"' then some ('"' :: content, r3)
            else if e = '\\' then some ('\\' :: content, r3)
            else if e = '/' then some ('/' :: content, r3)
            else if e = 'b' then some ('\x08' :: content, r3)
            else if e = 'f' then some ('\x0c' :: content, r3)
            else if e = 'n' then some ('\n' :: content, r3)
            else if e = 'r' then some ('\r' :: content, r3)
            else if e = 't' then some ('\t' :: content, r3)
            else none
    else if c.toNat < 0x20 then none
    else
      match parseStringBody fuel r with
      | some (content, r2) => some (c :: content, r2)
      | none => none

end

/-- `json.loads(s)`: parse one value surrounded by optional whitespace;
anything left over is an error (`None` here). -/
def pyJsonLoads (s : String) : Option PyVal :=
  match parseValue (s.data.length + 1) (skipWs s.data) with
  | some (v, r) => if skipWs r = [] then some v else none
  | none => none

/-! ### Structural predicates on values -/

/-- Occurrence of an opaque object id inside a value.  A value with no
occurrences is natively representable (null, booleans, numbers, text,
sequences and text-keyed mappings thereof). -/
inductive ObjOccurs (i : Nat) : PyVal → Prop where
  | self : ObjOccurs i (.pyobj i)
  | inList {x : PyVal} {xs : List PyVal} :
      x ∈ xs → ObjOccurs i x → ObjOccurs i (.pylist xs)
  | inDict {kv : String × PyVal} {kvs : List (String × PyVal)} :
      kv ∈ kvs → ObjOccurs i kv.2 → ObjOccurs i (.pydict kvs)

/-- A value is obj-free when no opaque object occurs in it. -/
def ObjFree (v : PyVal) : Prop := ∀ i, ¬ ObjOccurs i v

/-- Natively representable values as Python could hold them: obj-free,
and every mapping has distinct keys (a Python dict cannot repeat one). -/
inductive WFNative : PyVal → Prop where
  | wnone : WFNative .pynone
  | wbool (b : Bool) : WFNative (.pybool b)
  | wint (n : Int) : WFNative (.pyint n)
  | wstr (s : String) : WFNative (.pystr s)
  | wlist (xs : List PyVal) : (∀ x ∈ xs, WFNative x) → WFNative (.pylist xs)
  | wdict (kvs : List (String × PyVal)) :
      (kvs.map Prod.fst).Nodup → (∀ kv ∈ kvs, WFNative kv.2) → WFNative (.pydict kvs)

/-- Acyclicity of the conversion graph: a measure strictly decreasing
across every successful `to_json` conversion (the "no conversion cycle"
invariant of the spec). -/
def GoodEnv (env : Env) (d : Nat → Nat) : Prop :=
  ∀ id r, env id = .callable (.ok r) → ∀ i, ObjOccurs i r → d i < d id

/-- An environment in which every conversion yields a fresh convertible
object: the chain never revisits an id (so circular checking never
fires) and never reaches a native value. -/
def freshEnv : Env := fun id => .callable (.ok (.pyobj (id + 1)))

/-- A terminating conversion environment: every object converts
successfully and the conversion output only mentions objects of smaller
measure (so every conversion chain reaches a native value). -/
def TermEnv (env : Env) (d : Nat → Nat) : Prop :=
  ∀ id, ∃ r, env id = .callable (.ok r) ∧ ∀ i, ObjOccurs i r → d i < d id

/-- An environment with no `to_json` anywhere (plain objects). -/
def envNoToJson : Env := fun _ => .absent

/-- An environment with only non-callable `to_json` attributes. -/
def envNoncallable : Env := fun _ => .noncallable

/-- An environment whose conversions raise. -/
def envRaising : Env := fun _ => .callable (.error (.raised "boom"))

/-- A Point-like environment: object 0 converts to object 1, which
converts to the dict the `Point` example of the spec uses. -/
def envPoint : Env := fun id =>
  if id = 0 then .callable (.ok (.pyobj 1))
  else .callable (.ok (.pydict [("x", .pyint 1), ("y", .pyint 2)]))

/-- Measure witnessing that `envPoint` has no conversion cycle. -/
def dPoint : Nat → Nat := fun id => if id = 0 then 1 else 0

/-- Environment where every object converts to `None`. -/
def envConst : Env := fun _ => .callable (.ok .pynone)

instance {e a : Type} [DecidableEq e] [DecidableEq a] : DecidableEq (Except e a) := fun x y =>
  match x, y with
  | .error e₁, .error e₂ =>
    if h : e₁ = e₂ then .isTrue (by rw [h]) else .isFalse (by simp [h])
  | .ok x₁, .ok y₁ =>
    if h : x₁ = y₁ then .isTrue (by rw [h]) else .isFalse (by simp [h])
  | .error _, .ok _ => .isFalse (by simp)
  | .ok _, .error _ => .isFalse (by simp)

/-- First characters the default-option encoder can emit for a value:
never whitespace, never a closing bracket. -/
def headOk : List Char → Bool
  | [] => false
  | c :: _ => c = '[' || c = '\x7b' || c = '"' || c = '-' || c.isDigit
      || c = 't' || c = 'f' || c = 'n'

/-- Characters that may legally follow a complete value in the emitted
text: a separator comma, a closing bracket, or nothing. -/
def restOk : List Char → Bool
  | [] => true
  | c :: _ => c = ',' || c = ']' || c = '\x7d'

/-- The resolved configuration of a call with no keyword arguments (and
the `cls` the wrapper hardwires, which `resolveOpts` ignores). -/
def defaultOpts : Opts :=
  { skipkeys := false, ensure_ascii := true, check_circular := true, allow_nan := true,
    sort_keys := false, indent := none, itemSeparator := [',', ' '], keySeparator := [':', ' '] }

def c5Val : PyVal :=
  .pydict [("x", .pyint 1), ("y", .pylist [.pynone, .pybool true, .pystr "a", .pyint (-5)])]

theorem objFree_list_mem {xs : List PyVal} (h : ObjFree (.pylist xs)) :
    ∀ x ∈ xs, ObjFree x := by
  intro x hx i hocc
  exact h i (ObjOccurs.inList hx hocc)

theorem objFree_dict_mem {kvs : List (String × PyVal)} (h : ObjFree (.pydict kvs)) :
    ∀ kv ∈ kvs, ObjFree kv.2 := by
  intro kv hkv i hocc
  exact h i (ObjOccurs.inDict hkv hocc)

theorem sortEntries_mem {kvs : List (String × PyVal)} {kv : String × PyVal} :
    kv ∈ sortEntries kvs → kv ∈ kvs := by
  intro h
  exact (List.perm_insertionSort (fun a b : String × PyVal => a.1 ≤ b.1) kvs).mem_iff.mp h

/-! ### The encoder on obj-free values ignores its hook and markers -/

theorem encode_objfree_indep (fuel : Nat) :
    (∀ v, ObjFree v → ∀ opts lvl h₁ h₂ ms₁ ms₂,
      encodeVal h₁ opts fuel ms₁ lvl v = encodeVal h₂ opts fuel ms₂ lvl v)
    ∧ (∀ xs, (∀ x ∈ xs, ObjFree x) → ∀ opts lvl h₁ h₂ ms₁ ms₂,
      encodeList h₁ opts fuel ms₁ lvl xs = encodeList h₂ opts fuel ms₂ lvl xs)
    ∧ (∀ kvs, (∀ kv ∈ kvs, ObjFree kv.2) → ∀ opts lvl h₁ h₂ ms₁ ms₂,
      encodeDict h₁ opts fuel ms₁ lvl kvs = encodeDict h₂ opts fuel ms₂ lvl kvs) := by
  induction fuel with
  | zero => exact ⟨fun v _ opts lvl h₁ h₂ ms₁ ms₂ => rfl,
      fun xs _ opts lvl h₁ h₂ ms₁ ms₂ => rfl,
      fun kvs _ opts lvl h₁ h₂ ms₁ ms₂ => rfl⟩
  | succ fuel ih =>
    refine ⟨fun v hv opts lvl h₁ h₂ ms₁ ms₂ => ?_,
      fun xs hxs opts lvl h₁ h₂ ms₁ ms₂ => ?_,
      fun kvs hkvs opts lvl h₁ h₂ ms₁ ms₂ => ?_⟩
    · cases v with
      | pynone => rfl
      | pybool b => cases b <;> rfl
      | pyint n => rfl
      | pystr s => rfl
      | pylist xs =>
        have hmem := objFree_list_mem hv
        simp only [encodeVal]
        rw [ih.2.1 xs hmem opts _ h₁ h₂ ms₁ ms₂]
      | pydict kvs =>
        have hmem := objFree_dict_mem hv
        have hmem' : ∀ kv ∈ (if opts.sort_keys then sortEntries kvs else kvs), ObjFree kv.2 := by
          intro kv hkv
          split at hkv
          · exact hmem kv (sortEntries_mem hkv)
          · exact hmem kv hkv
        simp only [encodeVal]
        rw [ih.2.2 _ hmem' opts _ h₁ h₂ ms₁ ms₂]
      | pyobj id => exact absurd ObjOccurs.self (hv id)
    · cases xs with
      | nil => rfl
      | cons x xs =>
        simp only [encodeList]
        rw [ih.1 x (hxs x (List.mem_cons_self x xs)) opts lvl h₁ h₂ ms₁ ms₂,
          ih.2.1 xs (fun y hy => hxs y (List.mem_cons_of_mem x hy)) opts lvl h₁ h₂ ms₁ ms₂]
    · cases kvs with
      | nil => rfl
      | cons kv kvs =>
        simp only [encodeDict]
        rw [ih.1 kv.2 (hkvs kv (List.mem_cons_self kv kvs)) opts lvl h₁ h₂ ms₁ ms₂,
          ih.2.2 kvs (fun p hp => hkvs p (List.mem_cons_of_mem kv hp)) opts lvl h₁ h₂ ms₁ ms₂]
/-! ### Success with an always-failing hook transfers to any hook -/

theorem encode_success_transfer (h₁ h₂ : Nat → Except PyErr PyVal)
    (herr : ∀ id, ∃ e, h₁ id = .error e) (opts : Opts) (fuel : Nat) :
    (∀ v ms lvl s, encodeVal h₁ opts fuel ms lvl v = .ok s →
      encodeVal h₂ opts fuel ms lvl v = .ok s)
    ∧ (∀ xs ms lvl ps, encodeList h₁ opts fuel ms lvl xs = .ok ps →
      encodeList h₂ opts fuel ms lvl xs = .ok ps)
    ∧ (∀ kvs ms lvl ps, encodeDict h₁ opts fuel ms lvl kvs = .ok ps →
      encodeDict h₂ opts fuel ms lvl kvs = .ok ps) := by
  induction fuel with
  | zero =>
    refine ⟨fun v ms lvl s h => ?_, fun xs ms lvl ps h => ?_, fun kvs ms lvl ps h => ?_⟩
    · simp only [encodeVal] at h; exact absurd h (by simp)
    · simp only [encodeList] at h; exact absurd h (by simp)
    · simp only [encodeDict] at h; exact absurd h (by simp)
  | succ fuel ih =>
    refine ⟨fun v ms lvl s hok => ?_, fun xs ms lvl ps hok => ?_,
      fun kvs ms lvl ps hok => ?_⟩
    · cases v with
      | pynone => exact hok
      | pybool b => cases b <;> exact hok
      | pyint n => exact hok
      | pystr s2 => exact hok
      | pylist xs =>
        simp only [encodeVal] at hok ⊢
        by_cases hxe : xs.isEmpty = true
        · rw [if_pos hxe] at hok ⊢; exact hok
        · rw [if_neg hxe] at hok ⊢
          cases heq : encodeList h₁ opts fuel ms (if opts.indent.isSome then lvl + 1 else lvl) xs with
          | error e => rw [heq] at hok; exact absurd hok (by simp)
          | ok parts => rw [heq] at hok; rw [ih.2.1 xs _ _ _ heq]; exact hok
      | pydict kvs =>
        simp only [encodeVal] at hok ⊢
        by_cases hxe : kvs.isEmpty = true
        · rw [if_pos hxe] at hok ⊢; exact hok
        · rw [if_neg hxe] at hok ⊢
          cases heq : encodeDict h₁ opts fuel ms (if opts.indent.isSome then lvl + 1 else lvl)
              (if opts.sort_keys then sortEntries kvs else kvs) with
          | error e => rw [heq] at hok; exact absurd hok (by simp)
          | ok parts => rw [heq] at hok; rw [ih.2.2 _ _ _ _ heq]; exact hok
      | pyobj id =>
        simp only [encodeVal] at hok
        by_cases hc : (opts.check_circular && ms.contains id) = true
        · rw [if_pos hc] at hok; exact absurd hok (by simp)
        · rw [if_neg hc] at hok
          obtain ⟨e, he⟩ := herr id
          rw [he] at hok
          exact absurd hok (by simp)
    · cases xs with
      | nil => exact hok
      | cons x xs =>
        simp only [encodeList] at hok ⊢
        cases heq : encodeVal h₁ opts fuel ms lvl x with
        | error e => rw [heq] at hok; exact absurd hok (by simp)
        | ok c =>
          rw [heq] at hok
          rw [ih.1 x _ _ _ heq]
          cases heq2 : encodeList h₁ opts fuel ms lvl xs with
          | error e => rw [heq2] at hok; exact absurd hok (by simp)
          | ok cs => rw [heq2] at hok; rw [ih.2.1 xs _ _ _ heq2]; exact hok
    · cases kvs with
      | nil => exact hok
      | cons kv kvs =>
        obtain ⟨k, v2⟩ := kv
        simp only [encodeDict] at hok ⊢
        cases heq : encodeVal h₁ opts fuel ms lvl v2 with
        | error e => rw [heq] at hok; exact absurd hok (by simp)
        | ok c =>
          rw [heq] at hok
          rw [ih.1 v2 _ _ _ heq]
          cases heq2 : encodeDict h₁ opts fuel ms lvl kvs with
          | error e => rw [heq2] at hok; exact absurd hok (by simp)
          | ok cs => rw [heq2] at hok; rw [ih.2.2 kvs _ _ _ heq2]; exact hok

/-! ### A result other than RecursionError is stable under more fuel -/

theorem encode_fuel_stable (hook : Nat → Except PyErr PyVal) (opts : Opts) (fuel : Nat) :
    (∀ v ms lvl r, encodeVal hook opts fuel ms lvl v = r → r ≠ .error .recursionError →
      encodeVal hook opts (fuel + 1) ms lvl v = r)
    ∧ (∀ xs ms lvl r, encodeList hook opts fuel ms lvl xs = r → r ≠ .error .recursionError →
      encodeList hook opts (fuel + 1) ms lvl xs = r)
    ∧ (∀ kvs ms lvl r, encodeDict hook opts fuel ms lvl kvs = r → r ≠ .error .recursionError →
      encodeDict hook opts (fuel + 1) ms lvl kvs = r) := by
  induction fuel with
  | zero =>
    refine ⟨fun v ms lvl r h hr => ?_, fun xs ms lvl r h hr => ?_,
      fun kvs ms lvl r h hr => ?_⟩
    · simp only [encodeVal] at h; exact absurd h.symm hr
    · simp only [encodeList] at h; exact absurd h.symm hr
    · simp only [encodeDict] at h; exact absurd h.symm hr
  | succ fuel ih =>
    refine ⟨fun v ms lvl r h hr => ?_, fun xs ms lvl r h hr => ?_,
      fun kvs ms lvl r h hr => ?_⟩
    · cases v with
      | pynone => exact h
      | pybool b => cases b <;> exact h
      | pyint n => exact h
      | pystr s => exact h
      | pylist xs =>
        simp only [encodeVal] at h ⊢
        by_cases hxe : xs.isEmpty = true
        · rw [if_pos hxe] at h ⊢; exact h
        · rw [if_neg hxe] at h ⊢
          cases heq : encodeList hook opts fuel ms (if opts.indent.isSome then lvl + 1 else lvl) xs with
          | error e =>
            rw [heq] at h
            have he : (Except.error e : Except PyErr (List (List Char))) ≠ .error .recursionError := by
              intro hc; rw [← h] at hr; exact hr (by rw [hc])
            rw [ih.2.1 _ _ _ _ heq he]; exact h
          | ok parts =>
            rw [heq] at h
            rw [ih.2.1 _ _ _ _ heq (by simp)]; exact h
      | pydict kvs =>
        simp only [encodeVal] at h ⊢
        by_cases hxe : kvs.isEmpty = true
        · rw [if_pos hxe] at h ⊢; exact h
        · rw [if_neg hxe] at h ⊢
          cases heq : encodeDict hook opts fuel ms (if opts.indent.isSome then lvl + 1 else lvl)
              (if opts.sort_keys then sortEntries kvs else kvs) with
          | error e =>
            rw [heq] at h
            have he : (Except.error e : Except PyErr (List (List Char))) ≠ .error .recursionError := by
              intro hc; rw [← h] at hr; exact hr (by rw [hc])
            rw [ih.2.2 _ _ _ _ heq he]; exact h
          | ok parts =>
            rw [heq] at h
            rw [ih.2.2 _ _ _ _ heq (by simp)]; exact h
      | pyobj id =>
        simp only [encodeVal] at h ⊢
        by_cases hc : (opts.check_circular && ms.contains id) = true
        · rw [if_pos hc] at h ⊢; exact h
        · rw [if_neg hc] at h ⊢
          cases hh : hook id with
          | error e => rw [hh] at h; exact h
          | ok newv => rw [hh] at h; exact ih.1 _ _ _ _ h hr
    · cases xs with
      | nil => exact h
      | cons x xs =>
        simp only [encodeList] at h ⊢
        cases heq : encodeVal hook opts fuel ms lvl x with
        | error e =>
          rw [heq] at h
          have he : (Except.error e : Except PyErr (List Char)) ≠ .error .recursionError := by
            intro hc; rw [← h] at hr; exact hr (by rw [hc])
          rw [ih.1 _ _ _ _ heq he]; exact h
        | ok c =>
          rw [heq] at h
          rw [ih.1 _ _ _ _ heq (by simp)]
          cases heq2 : encodeList hook opts fuel ms lvl xs with
          | error e =>
            rw [heq2] at h
            have he : (Except.error e : Except PyErr (List (List Char))) ≠ .error .recursionError := by
              intro hc; rw [← h] at hr; exact hr (by rw [hc])
            rw [ih.2.1 _ _ _ _ heq2 he]; exact h
          | ok cs =>
            rw [heq2] at h
            rw [ih.2.1 _ _ _ _ heq2 (by simp)]; exact h
    · cases kvs with
      | nil => exact h
      | cons kv kvs =>
        obtain ⟨k, v2⟩ := kv
        simp only [encodeDict] at h ⊢
        cases heq : encodeVal hook opts fuel ms lvl v2 with
        | error e =>
          rw [heq] at h
          have he : (Except.error e : Except PyErr (List Char)) ≠ .error .recursionError := by
            intro hc; rw [← h] at hr; exact hr (by rw [hc])
          rw [ih.1 _ _ _ _ heq he]; exact h
        | ok c =>
          rw [heq] at h
          rw [ih.1 _ _ _ _ heq (by simp)]
          cases heq2 : encodeDict hook opts fuel ms lvl kvs with
          | error e =>
            rw [heq2] at h
            have he : (Except.error e : Except PyErr (List (List Char))) ≠ .error .recursionError := by
              intro hc; rw [← h] at hr; exact hr (by rw [hc])
            rw [ih.2.2 _ _ _ _ heq2 he]; exact h
          | ok cs =>
            rw [heq2] at h
            rw [ih.2.2 _ _ _ _ heq2 (by simp)]; exact h

/-- Monotone form of stability. -/
theorem encodeVal_fuel_mono (hook : Nat → Except PyErr PyVal) (opts : Opts)
    {fuel fuel' : Nat} (hle : fuel ≤ fuel') {v ms lvl r}
    (h : encodeVal hook opts fuel ms lvl v = r) (hr : r ≠ .error .recursionError) :
    encodeVal hook opts fuel' ms lvl v = r := by
  induction fuel', hle using Nat.le_induction with
  | base => exact h
  | succ fuel' hle ih => exact (encode_fuel_stable hook opts fuel').1 _ _ _ _ ih hr

/-! ### Behavior of the default chain -/

/-- Without circular-reference checking, an object whose `to_json` is
absent is handed back unchanged by `JsonEncoder.default` and re-entered
forever: every budget is exhausted. -/
theorem encode_absent_loop (env : Env) (opts : Opts) (hc : opts.check_circular = false)
    (id : Nat) (ha : env id = .absent) :
    ∀ fuel ms lvl, encodeVal (JsonEncoder.defaultHook env) opts fuel ms lvl (.pyobj id)
      = .error .recursionError := by
  intro fuel
  induction fuel with
  | zero => intro ms lvl; rfl
  | succ fuel ih =>
    intro ms lvl
    simp [encodeVal, hc, JsonEncoder.defaultHook, ha, ih ms lvl]

/-- With circular-reference checking on, revisiting a marked object id
raises the library's circular-reference error. -/
theorem encode_obj_in_markers (hook : Nat → Except PyErr PyVal) (opts : Opts)
    (hcc : opts.check_circular = true) {id : Nat} {ms : List Nat} (hm : id ∈ ms)
    (fuel lvl : Nat) :
    encodeVal hook opts (fuel + 1) ms lvl (.pyobj id) = .error .valueErrorCircular := by
  simp [encodeVal, hcc, hm]

/-- Under the acyclicity invariant, the encoder's result does not depend
on markers whose measure dominates everything occurring in the value. -/
theorem encode_markers_indep (env : Env) (d : Nat → Nat) (hg : GoodEnv env d)
    (opts : Opts) (fuel : Nat) :
    (∀ v ms₁ ms₂ lvl,
      (∀ j ∈ ms₁, ∀ i, ObjOccurs i v → d i < d j) →
      (∀ j ∈ ms₂, ∀ i, ObjOccurs i v → d i < d j) →
      encodeVal (JsonEncoder.defaultHook env) opts fuel ms₁ lvl v =
        encodeVal (JsonEncoder.defaultHook env) opts fuel ms₂ lvl v)
    ∧ (∀ xs ms₁ ms₂ lvl,
      (∀ j ∈ ms₁, ∀ i, ∀ x ∈ xs, ObjOccurs i x → d i < d j) →
      (∀ j ∈ ms₂, ∀ i, ∀ x ∈ xs, ObjOccurs i x → d i < d j) →
      encodeList (JsonEncoder.defaultHook env) opts fuel ms₁ lvl xs =
        encodeList (JsonEncoder.defaultHook env) opts fuel ms₂ lvl xs)
    ∧ (∀ kvs ms₁ ms₂ lvl,
      (∀ j ∈ ms₁, ∀ i, ∀ kv ∈ kvs, ObjOccurs i kv.2 → d i < d j) →
      (∀ j ∈ ms₂, ∀ i, ∀ kv ∈ kvs, ObjOccurs i kv.2 → d i < d j) →
      encodeDict (JsonEncoder.defaultHook env) opts fuel ms₁ lvl kvs =
        encodeDict (JsonEncoder.defaultHook env) opts fuel ms₂ lvl kvs) := by
  induction fuel with
  | zero =>
    exact ⟨fun v ms₁ ms₂ lvl h1 h2 => rfl, fun xs ms₁ ms₂ lvl h1 h2 => rfl,
      fun kvs ms₁ ms₂ lvl h1 h2 => rfl⟩
  | succ fuel ih =>
    refine ⟨fun v ms₁ ms₂ lvl h1 h2 => ?_, fun xs ms₁ ms₂ lvl h1 h2 => ?_,
      fun kvs ms₁ ms₂ lvl h1 h2 => ?_⟩
    · cases v with
      | pynone => rfl
      | pybool b => cases b <;> rfl
      | pyint n => rfl
      | pystr s => rfl
      | pylist xs =>
        simp only [encodeVal]
        rw [ih.2.1 xs ms₁ ms₂ _
          (fun j hj i x hx hocc => h1 j hj i (ObjOccurs.inList hx hocc))
          (fun j hj i x hx hocc => h2 j hj i (ObjOccurs.inList hx hocc))]
      | pydict kvs =>
        simp only [encodeVal]
        have htrans : ∀ kv ∈ (if opts.sort_keys then sortEntries kvs else kvs),
            kv ∈ kvs := by
          intro kv hkv
          split at hkv
          · exact sortEntries_mem hkv
          · exact hkv
        rw [ih.2.2 _ ms₁ ms₂ _
          (fun j hj i kv hkv hocc => h1 j hj i (ObjOccurs.inDict (htrans kv hkv) hocc))
          (fun j hj i kv hkv hocc => h2 j hj i (ObjOccurs.inDict (htrans kv hkv) hocc))]
      | pyobj id =>
        have hni₁ : id ∉ ms₁ := fun hmem =>
          absurd (h1 id hmem id ObjOccurs.self) (lt_irrefl _)
        have hni₂ : id ∉ ms₂ := fun hmem =>
          absurd (h2 id hmem id ObjOccurs.self) (lt_irrefl _)
        have hc₁ : ¬((opts.check_circular && ms₁.contains id) = true) := by simp [hni₁]
        have hc₂ : ¬((opts.check_circular && ms₂.contains id) = true) := by simp [hni₂]
        simp only [encodeVal]
        rw [if_neg hc₁, if_neg hc₂]
        cases he : env id with
        | absent =>
          simp only [JsonEncoder.defaultHook, he]
          by_cases hcc : opts.check_circular = true
          · rw [if_pos hcc, if_pos hcc]
            cases fuel with
            | zero => rfl
            | succ fuel' =>
              rw [encode_obj_in_markers _ opts hcc (List.mem_cons_self id ms₁) fuel' lvl,
                encode_obj_in_markers _ opts hcc (List.mem_cons_self id ms₂) fuel' lvl]
          · have hcf : opts.check_circular = false := Bool.eq_false_iff.mpr hcc
            rw [if_neg hcc, if_neg hcc,
              encode_absent_loop env opts hcf id he fuel ms₁ lvl,
              encode_absent_loop env opts hcf id he fuel ms₂ lvl]
        | noncallable => simp only [JsonEncoder.defaultHook, he]
        | callable r =>
          cases r with
          | error e => simp only [JsonEncoder.defaultHook, he]
          | ok rv =>
            simp only [JsonEncoder.defaultHook, he]
            have hocc_r : ∀ i, ObjOccurs i rv → d i < d id := hg id rv he
            by_cases hcc : opts.check_circular = true
            · rw [if_pos hcc, if_pos hcc]
              refine ih.1 rv (id :: ms₁) (id :: ms₂) lvl ?_ ?_
              · intro j hj i hocc
                rcases List.mem_cons.mp hj with hj | hj
                · rw [hj]; exact hocc_r i hocc
                · exact lt_trans (hocc_r i hocc) (h1 j hj id ObjOccurs.self)
              · intro j hj i hocc
                rcases List.mem_cons.mp hj with hj | hj
                · rw [hj]; exact hocc_r i hocc
                · exact lt_trans (hocc_r i hocc) (h2 j hj id ObjOccurs.self)
            · rw [if_neg hcc, if_neg hcc]
              refine ih.1 rv ms₁ ms₂ lvl ?_ ?_
              · intro j hj i hocc
                exact lt_trans (hocc_r i hocc) (h1 j hj id ObjOccurs.self)
              · intro j hj i hocc
                exact lt_trans (hocc_r i hocc) (h2 j hj id ObjOccurs.self)
    · cases xs with
      | nil => rfl
      | cons x xs =>
        simp only [encodeList]
        rw [ih.1 x ms₁ ms₂ lvl
          (fun j hj i hocc => h1 j hj i x (List.mem_cons_self x xs) hocc)
          (fun j hj i hocc => h2 j hj i x (List.mem_cons_self x xs) hocc),
          ih.2.1 xs ms₁ ms₂ lvl
          (fun j hj i y hy hocc => h1 j hj i y (List.mem_cons_of_mem x hy) hocc)
          (fun j hj i y hy hocc => h2 j hj i y (List.mem_cons_of_mem x hy) hocc)]
    · cases kvs with
      | nil => rfl
      | cons kv kvs =>
        obtain ⟨k, v2⟩ := kv
        simp only [encodeDict]
        rw [ih.1 v2 ms₁ ms₂ lvl
          (fun j hj i hocc => h1 j hj i (k, v2) (List.mem_cons_self _ kvs) hocc)
          (fun j hj i hocc => h2 j hj i (k, v2) (List.mem_cons_self _ kvs) hocc),
          ih.2.2 kvs ms₁ ms₂ lvl
          (fun j hj i p hp hocc => h1 j hj i p (List.mem_cons_of_mem _ hp) hocc)
          (fun j hj i p hp hocc => h2 j hj i p (List.mem_cons_of_mem _ hp) hocc)]

theorem encode_fresh_diverges (opts : Opts) :
    ∀ fuel i ms lvl, (∀ j ∈ ms, j < i) →
      encodeVal (JsonEncoder.defaultHook freshEnv) opts fuel ms lvl (.pyobj i)
        = .error .recursionError := by
  intro fuel
  induction fuel with
  | zero => intro i ms lvl hms; rfl
  | succ fuel ih =>
    intro i ms lvl hms
    have hni : i ∉ ms := fun hmem => absurd (hms i hmem) (lt_irrefl _)
    have hcnd : ¬((opts.check_circular && ms.contains i) = true) := by simp [hni]
    simp only [encodeVal]
    rw [if_neg hcnd]
    show encodeVal _ opts fuel (if opts.check_circular then i :: ms else ms) lvl (.pyobj (i + 1))
      = .error .recursionError
    refine ih (i + 1) _ lvl ?_
    intro j hj
    by_cases hcc : opts.check_circular = true
    · rw [if_pos hcc] at hj
      rcases List.mem_cons.mp hj with hj | hj
      · omega
      · have := hms j hj; omega
    · rw [if_neg hcc] at hj
      have := hms j hj; omega

/-! ### Termination under acyclic conversion chains -/

/-- Memberwise induction for the nested value type. -/
theorem PyVal.inductionOn (P : PyVal → Prop)
    (hnone : P .pynone) (hbool : ∀ b, P (.pybool b)) (hint : ∀ n, P (.pyint n))
    (hstr : ∀ s, P (.pystr s))
    (hlist : ∀ xs, (∀ x ∈ xs, P x) → P (.pylist xs))
    (hdict : ∀ kvs, (∀ kv ∈ kvs, P kv.2) → P (.pydict kvs))
    (hobj : ∀ id, P (.pyobj id)) : ∀ v, P v := by
  have key : ∀ n, ∀ v : PyVal, sizeOf v ≤ n → P v := by
    intro n
    induction n with
    | zero =>
      intro v hv
      cases v <;> simp at hv
    | succ n ih =>
      intro v hv
      cases v with
      | pynone => exact hnone
      | pybool b => exact hbool b
      | pyint m => exact hint m
      | pystr s => exact hstr s
      | pyobj id => exact hobj id
      | pylist xs =>
        refine hlist xs fun x hx => ih x ?_
        have h1 := List.sizeOf_lt_of_mem hx
        simp only [PyVal.pylist.sizeOf_spec] at hv
        omega
      | pydict kvs =>
        refine hdict kvs fun kv hkv => ih kv.2 ?_
        have h1 := List.sizeOf_lt_of_mem hkv
        have h2 : sizeOf kv.2 < sizeOf kv := by
          obtain ⟨a, b⟩ := kv
          simp
        simp only [PyVal.pydict.sizeOf_spec] at hv
        omega
  exact fun v => key (sizeOf v) v (le_refl _)

/-- Every finite value has a bound on the measure of its occurring ids. -/
theorem exists_occ_bound (d : Nat → Nat) (v : PyVal) :
    ∃ n, ∀ i, ObjOccurs i v → d i < n := by
  induction v using PyVal.inductionOn with
  | hnone => exact ⟨1, fun i h => by cases h⟩
  | hbool b => exact ⟨1, fun i h => by cases h⟩
  | hint n => exact ⟨1, fun i h => by cases h⟩
  | hstr s => exact ⟨1, fun i h => by cases h⟩
  | hobj id =>
    refine ⟨d id + 1, fun i h => ?_⟩
    cases h
    omega
  | hlist xs ih =>
    have key : ∀ ys : List PyVal, (∀ x ∈ ys, ∃ n, ∀ i, ObjOccurs i x → d i < n) →
        ∃ n, ∀ x ∈ ys, ∀ i, ObjOccurs i x → d i < n := by
      intro ys
      induction ys with
      | nil => exact fun _ => ⟨1, fun x hx => absurd hx (List.not_mem_nil x)⟩
      | cons y ys ihy =>
        intro hall
        obtain ⟨n₁, hn₁⟩ := hall y (List.mem_cons_self y ys)
        obtain ⟨n₂, hn₂⟩ := ihy fun x hx => hall x (List.mem_cons_of_mem y hx)
        refine ⟨max n₁ n₂, fun x hx i hocc => ?_⟩
        rcases List.mem_cons.mp hx with hx | hx
        · have := hn₁ i (hx ▸ hocc); omega
        · have := hn₂ x hx i hocc; omega
    obtain ⟨n, hn⟩ := key xs ih
    refine ⟨n, fun i hocc => ?_⟩
    cases hocc with
    | inList hx ho => exact hn _ hx i ho
  | hdict kvs ih =>
    have key : ∀ ps : List (String × PyVal),
        (∀ kv ∈ ps, ∃ n, ∀ i, ObjOccurs i kv.2 → d i < n) →
        ∃ n, ∀ kv ∈ ps, ∀ i, ObjOccurs i kv.2 → d i < n := by
      intro ps
      induction ps with
      | nil => exact fun _ => ⟨1, fun kv hkv => absurd hkv (List.not_mem_nil kv)⟩
      | cons p ps ihp =>
        intro hall
        obtain ⟨n₁, hn₁⟩ := hall p (List.mem_cons_self p ps)
        obtain ⟨n₂, hn₂⟩ := ihp fun kv hkv => hall kv (List.mem_cons_of_mem p hkv)
        refine ⟨max n₁ n₂, fun kv hkv i hocc => ?_⟩
        rcases List.mem_cons.mp hkv with hkv | hkv
        · have := hn₁ i (hkv ▸ hocc); omega
        · have := hn₂ kv hkv i hocc; omega
    obtain ⟨n, hn⟩ := key kvs ih
    refine ⟨n, fun i hocc => ?_⟩
    cases hocc with
    | inDict hkv ho => exact hn _ hkv i ho

theorem encodeList_avoid_recErr (hook : Nat → Except PyErr PyVal) (opts : Opts) :
    ∀ xs : List PyVal,
      (∀ x ∈ xs, ∀ ms lvl, ∃ F, ∀ fuel, F ≤ fuel →
        encodeVal hook opts fuel ms lvl x ≠ .error .recursionError) →
      ∀ ms lvl, ∃ F, ∀ fuel, F ≤ fuel →
        encodeList hook opts fuel ms lvl xs ≠ .error .recursionError := by
  intro xs
  induction xs with
  | nil =>
    intro _ ms lvl
    refine ⟨1, fun fuel hf => ?_⟩
    obtain ⟨fuel', rfl⟩ : ∃ k, fuel = k + 1 := ⟨fuel - 1, by omega⟩
    simp [encodeList]
  | cons x xs ihx =>
    intro hall ms lvl
    obtain ⟨F₁, hF₁⟩ := hall x (List.mem_cons_self x xs) ms lvl
    obtain ⟨F₂, hF₂⟩ := ihx (fun y hy => hall y (List.mem_cons_of_mem x hy)) ms lvl
    refine ⟨max F₁ F₂ + 1, fun fuel hf => ?_⟩
    obtain ⟨fuel', rfl⟩ : ∃ k, fuel = k + 1 := ⟨fuel - 1, by omega⟩
    simp only [encodeList]
    cases heq : encodeVal hook opts fuel' ms lvl x with
    | error e =>
      have : e ≠ .recursionError := by
        intro hc
        exact hF₁ fuel' (by omega) (by rw [heq, hc])
      simpa using this
    | ok c =>
      cases heq2 : encodeList hook opts fuel' ms lvl xs with
      | error e =>
        have : e ≠ .recursionError := by
          intro hc
          exact hF₂ fuel' (by omega) (by rw [heq2, hc])
        simpa using this
      | ok cs => simp

theorem encodeDict_avoid_recErr (hook : Nat → Except PyErr PyVal) (opts : Opts) :
    ∀ kvs : List (String × PyVal),
      (∀ kv ∈ kvs, ∀ ms lvl, ∃ F, ∀ fuel, F ≤ fuel →
        encodeVal hook opts fuel ms lvl kv.2 ≠ .error .recursionError) →
      ∀ ms lvl, ∃ F, ∀ fuel, F ≤ fuel →
        encodeDict hook opts fuel ms lvl kvs ≠ .error .recursionError := by
  intro kvs
  induction kvs with
  | nil =>
    intro _ ms lvl
    refine ⟨1, fun fuel hf => ?_⟩
    obtain ⟨fuel', rfl⟩ : ∃ k, fuel = k + 1 := ⟨fuel - 1, by omega⟩
    simp [encodeDict]
  | cons kv kvs ihx =>
    obtain ⟨k, v2⟩ := kv
    intro hall ms lvl
    obtain ⟨F₁, hF₁⟩ := hall (k, v2) (List.mem_cons_self _ kvs) ms lvl
    obtain ⟨F₂, hF₂⟩ := ihx (fun p hp => hall p (List.mem_cons_of_mem _ hp)) ms lvl
    refine ⟨max F₁ F₂ + 1, fun fuel hf => ?_⟩
    obtain ⟨fuel', rfl⟩ : ∃ k2, fuel = k2 + 1 := ⟨fuel - 1, by omega⟩
    simp only [encodeDict]
    cases heq : encodeVal hook opts fuel' ms lvl v2 with
    | error e =>
      have : e ≠ .recursionError := by
        intro hc
        exact hF₁ fuel' (by omega) (by rw [heq, hc])
      simpa using this
    | ok c =>
      cases heq2 : encodeDict hook opts fuel' ms lvl kvs with
      | error e =>
        have : e ≠ .recursionError := by
          intro hc
          exact hF₂ fuel' (by omega) (by rw [heq2, hc])
        simpa using this
      | ok cs => simp

/-- Main termination argument: when every conversion chain reaches a
native value (witnessed by the decreasing measure), some finite budget
suffices for any given value, i.e. serialization does not exhaust the
stack. -/
theorem encode_term_main (env : Env) (d : Nat → Nat) (ht : TermEnv env d) (opts : Opts) :
    ∀ n, ∀ v, (∀ i, ObjOccurs i v → d i < n) → ∀ ms lvl,
      ∃ F, ∀ fuel, F ≤ fuel →
        encodeVal (JsonEncoder.defaultHook env) opts fuel ms lvl v ≠ .error .recursionError := by
  intro n
  induction n using Nat.strong_induction_on with
  | _ n ihn =>
    intro v
    induction v using PyVal.inductionOn with
    | hnone =>
      intro _ ms lvl
      refine ⟨1, fun fuel hf => ?_⟩
      obtain ⟨fuel', rfl⟩ : ∃ kk, fuel = kk + 1 := ⟨fuel - 1, by omega⟩
      simp [encodeVal]
    | hbool b =>
      intro _ ms lvl
      refine ⟨1, fun fuel hf => ?_⟩
      obtain ⟨fuel', rfl⟩ : ∃ kk, fuel = kk + 1 := ⟨fuel - 1, by omega⟩
      cases b <;> simp [encodeVal]
    | hint m =>
      intro _ ms lvl
      refine ⟨1, fun fuel hf => ?_⟩
      obtain ⟨fuel', rfl⟩ : ∃ kk, fuel = kk + 1 := ⟨fuel - 1, by omega⟩
      simp [encodeVal]
    | hstr s =>
      intro _ ms lvl
      refine ⟨1, fun fuel hf => ?_⟩
      obtain ⟨fuel', rfl⟩ : ∃ kk, fuel = kk + 1 := ⟨fuel - 1, by omega⟩
      simp [encodeVal]
    | hlist xs ih =>
      intro hbound ms lvl
      have hmem : ∀ x ∈ xs, ∀ ms' lvl', ∃ F, ∀ fuel, F ≤ fuel →
          encodeVal (JsonEncoder.defaultHook env) opts fuel ms' lvl' x ≠ .error .recursionError := by
        intro x hx ms' lvl'
        exact ih x hx (fun i hocc => hbound i (ObjOccurs.inList hx hocc)) ms' lvl'
      obtain ⟨F, hF⟩ := encodeList_avoid_recErr _ opts xs hmem ms
        (if opts.indent.isSome then lvl + 1 else lvl)
      refine ⟨F + 1, fun fuel hf => ?_⟩
      obtain ⟨fuel', rfl⟩ : ∃ kk, fuel = kk + 1 := ⟨fuel - 1, by omega⟩
      simp only [encodeVal]
      by_cases hxe : xs.isEmpty = true
      · rw [if_pos hxe]; simp
      · rw [if_neg hxe]
        cases heq : encodeList (JsonEncoder.defaultHook env) opts fuel' ms
            (if opts.indent.isSome then lvl + 1 else lvl) xs with
        | error e =>
          have : e ≠ .recursionError := by
            intro hc
            exact hF fuel' (by omega) (by rw [heq, hc])
          simpa using this
        | ok parts => simp
    | hdict kvs ih =>
      intro hbound ms lvl
      have hmem : ∀ kv ∈ (if opts.sort_keys then sortEntries kvs else kvs), ∀ ms' lvl',
          ∃ F, ∀ fuel, F ≤ fuel →
          encodeVal (JsonEncoder.defaultHook env) opts fuel ms' lvl' kv.2 ≠ .error .recursionError := by
        intro kv hkv ms' lvl'
        have hkv' : kv ∈ kvs := by
          split at hkv
          · exact sortEntries_mem hkv
          · exact hkv
        exact ih kv hkv' (fun i hocc => hbound i (ObjOccurs.inDict hkv' hocc)) ms' lvl'
      obtain ⟨F, hF⟩ := encodeDict_avoid_recErr _ opts _ hmem ms
        (if opts.indent.isSome then lvl + 1 else lvl)
      refine ⟨F + 1, fun fuel hf => ?_⟩
      obtain ⟨fuel', rfl⟩ : ∃ kk, fuel = kk + 1 := ⟨fuel - 1, by omega⟩
      simp only [encodeVal]
      by_cases hxe : kvs.isEmpty = true
      · rw [if_pos hxe]; simp
      · rw [if_neg hxe]
        cases heq : encodeDict (JsonEncoder.defaultHook env) opts fuel' ms
            (if opts.indent.isSome then lvl + 1 else lvl)
            (if opts.sort_keys then sortEntries kvs else kvs) with
        | error e =>
          have : e ≠ .recursionError := by
            intro hc
            exact hF fuel' (by omega) (by rw [heq, hc])
          simpa using this
        | ok parts => simp
    | hobj id =>
      intro hbound ms lvl
      obtain ⟨r, hr, hrocc⟩ := ht id
      have hdn : d id < n := hbound id ObjOccurs.self
      obtain ⟨F, hF⟩ := ihn (d id) hdn r hrocc
        (if opts.check_circular then id :: ms else ms) lvl
      refine ⟨F + 1, fun fuel hf => ?_⟩
      obtain ⟨fuel', rfl⟩ : ∃ kk, fuel = kk + 1 := ⟨fuel - 1, by omega⟩
      simp only [encodeVal]
      by_cases hcm : (opts.check_circular && ms.contains id) = true
      · rw [if_pos hcm]; simp
      · rw [if_neg hcm]
        rw [show JsonEncoder.defaultHook env id = .ok r by
          simp [JsonEncoder.defaultHook, hr]]
        exact hF fuel' (by omega)

/-! ### Wrapper-level helpers -/

theorem resolveOpts_cls (k : Kwargs) (c : Option EncoderCls) :
    resolveOpts { k with cls := c } = resolveOpts k := rfl

/-- With no `cls` keyword, `json_dumps` is the standard encode loop with
the wrapper's hook. -/
theorem json_dumps_eq (env : Env) (fuel : Nat) (o : PyVal) (k : Kwargs)
    (hcls : k.cls = none) :
    json_dumps env fuel o k =
      match encodeVal (JsonEncoder.defaultHook env) (resolveOpts k) fuel [] 0 o with
      | .error e => .error e
      | .ok cs => .ok (String.mk cs) := by
  simp [json_dumps, hcls, json.dumps, clsHook, resolveOpts_cls k (some .JsonEncoder)]

theorem json_dump_eq (env : Env) (fuel : Nat) (o : PyVal) (fp : List String) (k : Kwargs)
    (hcls : k.cls = none) :
    json_dump env fuel o fp k =
      match encodeVal (JsonEncoder.defaultHook env) (resolveOpts k) fuel [] 0 o with
      | .error e => .error e
      | .ok cs => .ok (fp ++ [String.mk cs]) := by
  simp [json_dump, hcls, json.dump, clsHook, resolveOpts_cls k (some .JsonEncoder)]

/-- Two runs of the encoder on the same value that both avoid stack
exhaustion agree (the budget is immaterial once sufficient). -/
theorem encode_agree_of_no_recErr (hook : Nat → Except PyErr PyVal) (opts : Opts)
    (f₁ f₂ : Nat) {v ms lvl r₁ r₂}
    (h₁ : encodeVal hook opts f₁ ms lvl v = r₁) (h₂ : encodeVal hook opts f₂ ms lvl v = r₂)
    (hr₁ : r₁ ≠ .error .recursionError) (hr₂ : r₂ ≠ .error .recursionError) : r₁ = r₂ := by
  have m₁ := encodeVal_fuel_mono hook opts (le_max_left f₁ f₂) h₁ hr₁
  have m₂ := encodeVal_fuel_mono hook opts (le_max_right f₁ f₂) h₂ hr₂
  rw [m₁] at m₂
  exact m₂

/-- One step of the `default` chain seen from `json_dumps`: serializing
an object whose `to_json` returns `r` is serializing `r` (the marker
pushed for the object cannot fire under acyclicity). -/
theorem dumps_step_core (env : Env) (d : Nat → Nat) (hg : GoodEnv env d) (k : Kwargs)
    (hcls : k.cls = none) {id : Nat} {r : PyVal} (fuel : Nat)
    (hid : env id = .callable (.ok r)) :
    json_dumps env (fuel + 1) (.pyobj id) k =
      match encodeVal (JsonEncoder.defaultHook env) (resolveOpts k) fuel [] 0 r with
      | .error e => .error e
      | .ok cs => .ok (String.mk cs) := by
  rw [json_dumps_eq env (fuel + 1) _ k hcls]
  have hstep : encodeVal (JsonEncoder.defaultHook env) (resolveOpts k) (fuel + 1) [] 0 (.pyobj id)
      = encodeVal (JsonEncoder.defaultHook env) (resolveOpts k) fuel
          (if (resolveOpts k).check_circular then [id] else []) 0 r := by
    simp [encodeVal, JsonEncoder.defaultHook, hid]
  have hmk : encodeVal (JsonEncoder.defaultHook env) (resolveOpts k) fuel
      (if (resolveOpts k).check_circular then [id] else []) 0 r
      = encodeVal (JsonEncoder.defaultHook env) (resolveOpts k) fuel [] 0 r := by
    refine (encode_markers_indep env d hg (resolveOpts k) fuel).1 r _ [] 0 ?_ ?_
    · intro j hj i hocc
      split at hj
      · have hj' : j = id := by simpa using hj
        rw [hj']
        exact hg id r hid i hocc
      · exact absurd hj (List.not_mem_nil j)
    · intro j hj i hocc
      exact absurd hj (List.not_mem_nil j)
  rw [hstep, hmk]

/-- Substituting a conversion result for the object leaves the
serialized output unchanged, whenever both runs avoid stack exhaustion
and conversions are acyclic. -/
theorem dumps_conv_step (env : Env) (d : Nat → Nat) (hg : GoodEnv env d) (k : Kwargs)
    {id : Nat} {r : PyVal} (hid : env id = .callable (.ok r))
    {fuel₁ fuel₂ : Nat} {res₁ res₂ : Except PyErr String}
    (h₁ : json_dumps env fuel₁ (.pyobj id) k = res₁)
    (h₂ : json_dumps env fuel₂ r k = res₂)
    (hr₁ : res₁ ≠ .error .recursionError) (hr₂ : res₂ ≠ .error .recursionError) :
    res₁ = res₂ := by
  rcases hk : k.cls with _ | c
  · cases fuel₁ with
    | zero =>
      refine absurd ?_ hr₁
      rw [← h₁, json_dumps_eq env 0 _ k hk]
      rfl
    | succ f =>
      rw [dumps_step_core env d hg k hk f hid] at h₁
      rw [json_dumps_eq env fuel₂ _ k hk] at h₂
      have hne₁ : encodeVal (JsonEncoder.defaultHook env) (resolveOpts k) f [] 0 r
          ≠ .error .recursionError := by
        intro hc
        rw [hc] at h₁
        exact hr₁ (by rw [← h₁])
      have hne₂ : encodeVal (JsonEncoder.defaultHook env) (resolveOpts k) fuel₂ [] 0 r
          ≠ .error .recursionError := by
        intro hc
        rw [hc] at h₂
        exact hr₂ (by rw [← h₂])
      have hee := encode_agree_of_no_recErr (JsonEncoder.defaultHook env) (resolveOpts k)
        f fuel₂ rfl rfl hne₁ hne₂
      rw [← h₁, ← h₂, hee]
  · have e₁ : json_dumps env fuel₁ (.pyobj id) k = .error .typeErrorDuplicateKeywordCls := by
      simp [json_dumps, hk]
    have e₂ : json_dumps env fuel₂ r k = .error .typeErrorDuplicateKeywordCls := by
      simp [json_dumps, hk]
    rw [← h₁, ← h₂, e₁, e₂]

/-! ### Claim theorems -/

/-- Claim C1 (code bug evidence).  The claim says that for a value with
no `to_json` attribute both serialize operations propagate the base
serializer's standard "object is not serializable" TypeError unchanged.
The code does not: `JsonEncoder.default` returns the object unchanged
instead of deferring to the base implementation, so the library re-enters
the default hook on the same object and raises ValueError "Circular
reference detected" under default options (and exhausts the stack with
`check_circular=False`), while the plain `json.dumps` raises the
standard TypeError.  This theorem evaluates the model at that failing
input. -/
theorem c1_masked_not_serializable_error :
    json_dumps envNoToJson 10 (.pyobj 0) {} = .error .valueErrorCircular
    ∧ json_dump envNoToJson 10 (.pyobj 0) [] {} = .error .valueErrorCircular
    ∧ json_dumps envNoToJson 10 (.pyobj 0) { check_circular := some false }
        = .error .recursionError
    ∧ json.dumps envNoToJson 10 (.pyobj 0) {} = .error (.typeErrorNotSerializable 0) :=
  ⟨rfl, rfl, rfl, rfl⟩

/-- Claim C2.  For a value `o` whose `to_json` returns `r`,
`serialize(o) = serialize(r)`, and the substitution applies recursively
through a conversion chain; stated under the spec's invariant that
conversion chains are acyclic (a measure decreasing across conversions)
and for runs that do not exhaust the interpreter stack. -/
theorem c2_conversion_substitution (env : Env) (d : Nat → Nat) (hg : GoodEnv env d)
    (k : Kwargs) :
    (∀ id r fuel₁ fuel₂ res₁ res₂, env id = .callable (.ok r) →
      json_dumps env fuel₁ (.pyobj id) k = res₁ → json_dumps env fuel₂ r k = res₂ →
      res₁ ≠ .error .recursionError → res₂ ≠ .error .recursionError → res₁ = res₂)
    ∧ (∀ id₁ id₂ v2 fuel₁ fuel₂ res₁ res₂,
      env id₁ = .callable (.ok (.pyobj id₂)) → env id₂ = .callable (.ok v2) →
      json_dumps env fuel₁ (.pyobj id₁) k = res₁ → json_dumps env fuel₂ v2 k = res₂ →
      res₁ ≠ .error .recursionError → res₂ ≠ .error .recursionError → res₁ = res₂) := by
  constructor
  · intro id r fuel₁ fuel₂ res₁ res₂ hid h₁ h₂ hr₁ hr₂
    exact dumps_conv_step env d hg k hid h₁ h₂ hr₁ hr₂
  · intro id₁ id₂ v2 fuel₁ fuel₂ res₁ res₂ hid₁ hid₂ h₁ h₂ hr₁ hr₂
    rcases hk : k.cls with _ | c
    · cases fuel₁ with
      | zero =>
        refine absurd ?_ hr₁
        rw [← h₁, json_dumps_eq env 0 _ k hk]
        rfl
      | succ f =>
        rw [dumps_step_core env d hg k hk f hid₁] at h₁
        have hm : json_dumps env f (.pyobj id₂) k = res₁ := by
          rw [json_dumps_eq env f _ k hk, h₁]
        exact dumps_conv_step env d hg k hid₂ hm h₂ hr₁ hr₂
    · have e₁ : json_dumps env fuel₁ (.pyobj id₁) k = .error .typeErrorDuplicateKeywordCls := by
        simp [json_dumps, hk]
      have e₂ : json_dumps env fuel₂ v2 k = .error .typeErrorDuplicateKeywordCls := by
        simp [json_dumps, hk]
      rw [← h₁, ← h₂, e₁, e₂]

/-- Counterexample to claim C3 as stated: over "every option
configuration" the wrapper does not agree with the base serializer even
on native values, because a configuration passing `cls` makes the
wrapper raise a duplicate-keyword TypeError where the base call
succeeds. -/
theorem c3_counterexample :
    json.dumps envNoToJson 10 .pynone { cls := some .JSONEncoder } = .ok "null"
    ∧ json_dumps envNoToJson 10 .pynone { cls := some .JSONEncoder }
        = .error .typeErrorDuplicateKeywordCls :=
  ⟨rfl, rfl⟩

/-- Claim C3, amended: for every natively representable value and every
option configuration that does not pass `cls`, the wrapper's output
equals the standard library's. -/
theorem c3_native_values_unchanged (env : Env) (fuel : Nat) (v : PyVal) (k : Kwargs)
    (hv : ObjFree v) (hcls : k.cls = none) :
    json_dumps env fuel v k = json.dumps env fuel v k := by
  rw [json_dumps_eq env fuel v k hcls]
  show _ = match encodeVal (clsHook (k.cls.getD .JSONEncoder) env) (resolveOpts k) fuel [] 0 v with
    | .error e => .error e
    | .ok cs => .ok (String.mk cs)
  rw [(encode_objfree_indep fuel).1 v hv (resolveOpts k) 0
    (JsonEncoder.defaultHook env) (clsHook (k.cls.getD .JSONEncoder) env) [] []]

/-- Counterexample to claim C4 as stated: `cls` is listed among the
options the wrapper should accept and forward, but passing it collides
with the hardwired `cls=JsonEncoder`: the base call succeeds while both
wrappers raise a duplicate-keyword TypeError. -/
theorem c4_counterexample :
    json.dumps envNoToJson 10 (.pybool true) { cls := some .JSONEncoder } = .ok "true"
    ∧ json_dumps envNoToJson 10 (.pybool true) { cls := some .JSONEncoder }
        = .error .typeErrorDuplicateKeywordCls
    ∧ json_dump envNoToJson 10 (.pybool true) [] { cls := some .JSONEncoder }
        = .error .typeErrorDuplicateKeywordCls :=
  ⟨rfl, rfl, rfl⟩

/-- Claim C4, amended: for every keyword configuration not containing
`cls`, both wrappers forward the whole configuration to the library
(adding only `cls=JsonEncoder`), and succeed whenever the corresponding
base call succeeds. -/
theorem c4_forwards_options (env : Env) (fuel : Nat) (v : PyVal) (fp : List String)
    (k : Kwargs) (hcls : k.cls = none) :
    (json_dumps env fuel v k = json.dumps env fuel v { k with cls := some .JsonEncoder }
      ∧ json_dump env fuel v fp k = json.dump env fuel v fp { k with cls := some .JsonEncoder })
    ∧ (∀ s, json.dumps env fuel v k = .ok s → json_dumps env fuel v k = .ok s)
    ∧ (∀ out, json.dump env fuel v fp k = .ok out → json_dump env fuel v fp k = .ok out) := by
  have herr : ∀ id, ∃ e, JSONEncoder.defaultHook env id = .error e :=
    fun id => ⟨.typeErrorNotSerializable id, rfl⟩
  refine ⟨⟨by simp [json_dumps, hcls], by simp [json_dump, hcls]⟩, ?_, ?_⟩
  · intro s hs
    rw [json_dumps_eq env fuel v k hcls]
    have hs' := hs
    rw [show json.dumps env fuel v k =
        match encodeVal (JSONEncoder.defaultHook env) (resolveOpts k) fuel [] 0 v with
        | .error e => .error e
        | .ok cs => .ok (String.mk cs) by simp [json.dumps, hcls, clsHook]] at hs'
    cases heq : encodeVal (JSONEncoder.defaultHook env) (resolveOpts k) fuel [] 0 v with
    | error e => rw [heq] at hs'; exact absurd hs' (by simp)
    | ok cs =>
      rw [heq] at hs'
      rw [(encode_success_transfer (JSONEncoder.defaultHook env) (JsonEncoder.defaultHook env)
        herr (resolveOpts k) fuel).1 v [] 0 cs heq]
      exact hs'
  · intro out hs
    rw [json_dump_eq env fuel v fp k hcls]
    have hs' := hs
    rw [show json.dump env fuel v fp k =
        match encodeVal (JSONEncoder.defaultHook env) (resolveOpts k) fuel [] 0 v with
        | .error e => .error e
        | .ok cs => .ok (fp ++ [String.mk cs]) by simp [json.dump, hcls, clsHook]] at hs'
    cases heq : encodeVal (JSONEncoder.defaultHook env) (resolveOpts k) fuel [] 0 v with
    | error e => rw [heq] at hs'; exact absurd hs' (by simp)
    | ok cs =>
      rw [heq] at hs'
      rw [(encode_success_transfer (JSONEncoder.defaultHook env) (JsonEncoder.defaultHook env)
        herr (resolveOpts k) fuel).1 v [] 0 cs heq]
      exact hs'

/-- Claim C7.  When every conversion chain reaches a native value after
finitely many applications (witnessed by a decreasing measure), some
finite stack budget makes serialization terminate with a budget-stable
result; and without that precondition the design does not guard against
unbounded recursion: an environment handing out a fresh convertible
object at each conversion exhausts every budget under default options. -/
theorem c7_termination (env : Env) (d : Nat → Nat) (ht : TermEnv env d)
    (v : PyVal) (k : Kwargs) :
    (∃ F, ∀ fuel, F ≤ fuel →
      json_dumps env fuel v k = json_dumps env F v k
      ∧ json_dumps env F v k ≠ .error .recursionError)
    ∧ (∀ fuel, json_dumps freshEnv fuel (.pyobj 0) {} = .error .recursionError) := by
  constructor
  · rcases hk : k.cls with _ | c
    · obtain ⟨n, hn⟩ := exists_occ_bound d v
      obtain ⟨F, hF⟩ := encode_term_main env d ht (resolveOpts k) n v hn [] 0
      refine ⟨F, fun fuel hf => ?_⟩
      have hFne := hF F (le_refl F)
      have hfne := hF fuel hf
      have hagree := encode_agree_of_no_recErr (JsonEncoder.defaultHook env) (resolveOpts k)
        fuel F rfl rfl hfne hFne
      constructor
      · rw [json_dumps_eq env fuel v k hk, json_dumps_eq env F v k hk, hagree]
      · rw [json_dumps_eq env F v k hk]
        cases heq : encodeVal (JsonEncoder.defaultHook env) (resolveOpts k) F [] 0 v with
        | error e =>
          have : e ≠ .recursionError := by
            intro hc
            exact hFne (by rw [heq, hc])
          simpa using this
        | ok cs => simp
    · refine ⟨0, fun fuel hf => ?_⟩
      have e₁ : json_dumps env fuel v k = .error .typeErrorDuplicateKeywordCls := by
        simp [json_dumps, hk]
      have e₂ : json_dumps env 0 v k = .error .typeErrorDuplicateKeywordCls := by
        simp [json_dumps, hk]
      rw [e₁, e₂]
      exact ⟨rfl, by simp⟩
  · intro fuel
    rw [json_dumps_eq freshEnv fuel (.pyobj 0) {} rfl]
    rw [encode_fresh_diverges (resolveOpts {}) fuel 0 [] 0 (fun j hj => absurd hj (List.not_mem_nil j))]

/-- Claim C8.  The capability probe is `hasattr(obj, 'to_json')`: for an
object whose `to_json` attribute is present but not callable, the
encoder attempts the call and the resulting "not callable" TypeError
(not the base not-serializable TypeError) propagates. -/
theorem c8_noncallable_attribute (env : Env) (id : Nat) (k : Kwargs) (fuel : Nat)
    (h : env id = .noncallable) (hcls : k.cls = none) (hf : 1 ≤ fuel) :
    json_dumps env fuel (.pyobj id) k = .error (.typeErrorNotCallable id)
    ∧ (Except.error (.typeErrorNotCallable id) : Except PyErr String)
        ≠ .error (.typeErrorNotSerializable id) := by
  obtain ⟨f, rfl⟩ : ∃ f, fuel = f + 1 := ⟨fuel - 1, by omega⟩
  constructor
  · rw [json_dumps_eq env (f + 1) _ k hcls]
    have : encodeVal (JsonEncoder.defaultHook env) (resolveOpts k) (f + 1) [] 0 (.pyobj id)
        = .error (.typeErrorNotCallable id) := by
      simp [encodeVal, JsonEncoder.defaultHook, h]
    rw [this]
  · simp

/-- Claim C9.  An exception raised inside `to_json` propagates unchanged
through both `json_dumps` and `json_dump`: no local recovery. -/
theorem c9_to_json_exception_propagates (env : Env) (id : Nat) (k : Kwargs) (fuel : Nat)
    (msg : String) (fp : List String)
    (h : env id = .callable (.error (.raised msg))) (hcls : k.cls = none) (hf : 1 ≤ fuel) :
    json_dumps env fuel (.pyobj id) k = .error (.raised msg)
    ∧ json_dump env fuel (.pyobj id) fp k = .error (.raised msg) := by
  obtain ⟨f, rfl⟩ : ∃ f, fuel = f + 1 := ⟨fuel - 1, by omega⟩
  have henc : encodeVal (JsonEncoder.defaultHook env) (resolveOpts k) (f + 1) [] 0 (.pyobj id)
      = .error (.raised msg) := by
    simp [encodeVal, JsonEncoder.defaultHook, h]
  constructor
  · rw [json_dumps_eq env (f + 1) _ k hcls, henc]
  · rw [json_dump_eq env (f + 1) _ fp k hcls, henc]

/-- Claim C10.  Whenever both succeed on the same value and options, the
text `json_dump` writes to its sink is exactly the string `json_dumps`
returns: both delegate to the same encoder. -/
theorem c10_dump_dumps_agree (env : Env) (fuel : Nat) (v : PyVal) (fp : List String)
    (k : Kwargs) (s : String) (out : List String)
    (hs : json_dumps env fuel v k = .ok s) (ho : json_dump env fuel v fp k = .ok out) :
    out = fp ++ [s] := by
  rcases hk : k.cls with _ | c
  · rw [json_dumps_eq env fuel v k hk] at hs
    rw [json_dump_eq env fuel v fp k hk] at ho
    cases heq : encodeVal (JsonEncoder.defaultHook env) (resolveOpts k) fuel [] 0 v with
    | error e =>
      rw [heq] at hs
      exact absurd hs (by simp)
    | ok cs =>
      rw [heq] at hs ho
      have hs' : String.mk cs = s := by
        have := hs
        simpa using this
      have ho' : fp ++ [String.mk cs] = out := by
        have := ho
        simpa using this
      rw [← ho', hs']
  · rw [show json_dumps env fuel v k = .error .typeErrorDuplicateKeywordCls by
      simp [json_dumps, hk]] at hs
    exact absurd hs (by simp)

theorem c2_witness :
    json_dumps envPoint 20 (.pyobj 1) {}
      = json_dumps envPoint 20 (.pydict [("x", .pyint 1), ("y", .pyint 2)]) {}
    ∧ json_dumps envPoint 20 (.pyobj 0) {}
      = json_dumps envPoint 20 (.pydict [("x", .pyint 1), ("y", .pyint 2)]) {} := by
  have hg : GoodEnv envPoint dPoint := by
    intro id r h i hocc
    by_cases h0 : id = 0
    · subst h0
      have hr : (.pyobj 1 : PyVal) = r := by simpa [envPoint] using h
      rw [← hr] at hocc
      cases hocc
      simp [dPoint]
    · have hr : (.pydict [("x", .pyint 1), ("y", .pyint 2)] : PyVal) = r := by
        simpa [envPoint, h0] using h
      rw [← hr] at hocc
      cases hocc with
      | inDict hmem ho =>
        simp at hmem
        rcases hmem with h1 | h1 <;> rw [h1] at ho <;> cases ho
  constructor
  · exact (c2_conversion_substitution envPoint dPoint hg {}).1 1 _ 20 20 _ _ rfl rfl rfl
      (by decide) (by decide)
  · exact (c2_conversion_substitution envPoint dPoint hg {}).2 0 1 _ 20 20 _ _ rfl rfl rfl rfl
      (by decide) (by decide)

theorem c3_witness :
    json_dumps envNoToJson 7 (.pylist [.pyint 1, .pystr "a"])
        { indent := some (.ofNat 2), sort_keys := some true }
      = json.dumps envNoToJson 7 (.pylist [.pyint 1, .pystr "a"])
        { indent := some (.ofNat 2), sort_keys := some true } := by
  refine c3_native_values_unchanged _ _ _ _ ?_ rfl
  intro i h
  cases h with
  | inList hx ho =>
    simp at hx
    rcases hx with h1 | h1 <;> rw [h1] at ho <;> cases ho

theorem c4_witness :
    json_dumps envNoToJson 9 (.pyint 5) { sort_keys := some true }
      = json.dumps envNoToJson 9 (.pyint 5)
          { sort_keys := some true, cls := some .JsonEncoder }
    ∧ json_dumps envNoToJson 9 (.pyint 5) { sort_keys := some true } = .ok "5" := by
  have h := c4_forwards_options envNoToJson 9 (.pyint 5) [] { sort_keys := some true } rfl
  exact ⟨h.1.1, h.2.1 "5" rfl⟩

theorem c7_witness :
    (∃ F, ∀ fuel, F ≤ fuel →
      json_dumps envConst fuel (.pyobj 5) {} = json_dumps envConst F (.pyobj 5) {}
      ∧ json_dumps envConst F (.pyobj 5) {} ≠ .error .recursionError)
    ∧ json_dumps freshEnv 50 (.pyobj 0) {} = .error .recursionError := by
  have h := c7_termination envConst (fun _ => 0)
    (fun id => ⟨.pynone, rfl, fun i hocc => by cases hocc⟩) (.pyobj 5) {}
  exact ⟨h.1, h.2 50⟩

theorem c8_witness :
    json_dumps envNoncallable 5 (.pyobj 3) {} = .error (.typeErrorNotCallable 3)
    ∧ (Except.error (.typeErrorNotCallable 3) : Except PyErr String)
        ≠ .error (.typeErrorNotSerializable 3) :=
  c8_noncallable_attribute envNoncallable 3 {} 5 rfl rfl (by omega)

theorem c9_witness :
    json_dumps envRaising 5 (.pyobj 2) {} = .error (.raised "boom")
    ∧ json_dump envRaising 5 (.pyobj 2) ["pre"] {} = .error (.raised "boom") :=
  c9_to_json_exception_propagates envRaising 2 {} 5 "boom" ["pre"] rfl rfl (by omega)

theorem c10_witness :
    (["pre", "[1, 2]"] : List String) = ["pre"] ++ ["[1, 2]"] :=
  c10_dump_dumps_agree envNoToJson 9 (.pylist [.pyint 1, .pyint 2]) ["pre"] {}
    "[1, 2]" ["pre", "[1, 2]"] rfl rfl

/-! ### Support lemmas for the round-trip claim -/

theorem lor_mul_pow_add : ∀ (k x y : Nat), y < 2 ^ k → x * 2 ^ k ||| y = x * 2 ^ k + y := by
  intro k
  induction k with
  | zero =>
    intro x y hy
    have hy0 : y = 0 := by simpa using hy
    subst hy0
    simp [Nat.or_zero]
  | succ k ih =>
    intro x y hy
    have hx2 : x * 2 ^ (k + 1) = Nat.bit false (x * 2 ^ k) := by
      simp [Nat.bit_val, pow_succ]
      ring
    have hy2 : y = Nat.bit y.bodd y.div2 := (Nat.bit_decomp y).symm
    have hb := Nat.bodd_add_div2 y
    have hpow : (2 : Nat) ^ (k + 1) = 2 * 2 ^ k := by ring
    have hdiv : y.div2 < 2 ^ k := by omega
    rw [hx2]
    conv_lhs => rw [hy2]
    rw [Nat.lor_bit, ih x y.div2 hdiv]
    have hxx : x * 2 ^ (k + 1) = 2 * (x * 2 ^ k) := by ring
    simp [Nat.bit_val]
    omega

theorem lor_d800 {z : Nat} (hz : z < 1024) : 0xd800 ||| z = 0xd800 + z := by
  have h := lor_mul_pow_add 10 54 z (by norm_num; omega)
  norm_num at h
  exact h

theorem lor_dc00 {z : Nat} (hz : z < 1024) : 0xdc00 ||| z = 0xdc00 + z := by
  have h := lor_mul_pow_add 10 55 z (by norm_num; omega)
  norm_num at h
  exact h

theorem shiftLeft_lor_eq {x y : Nat} (hy : y < 1024) : (x <<< 10) ||| y = x * 1024 + y := by
  rw [Nat.shiftLeft_eq]
  have h := lor_mul_pow_add 10 x y (by norm_num; omega)
  norm_num at h ⊢
  exact h

theorem and_1023_eq {n : Nat} : n &&& 0x3ff = n % 1024 := by
  have h := Nat.and_pow_two_sub_one_eq_mod n 10
  norm_num at h
  exact h

theorem char_toNat_valid (c : Char) :
    c.toNat < 0xd800 ∨ (0xe000 ≤ c.toNat ∧ c.toNat < 0x110000) := by
  have h := c.valid
  simpa [UInt32.isValidChar, Nat.isValidChar, Char.toNat] using h

theorem isDigit_toNat {c : Char} (h : c.isDigit = true) :
    48 ≤ c.toNat ∧ c.toNat ≤ 57 := by
  simp [Char.isDigit] at h
  exact h

theorem ne_of_toNat_ne {c d : Char} (h : c.toNat ≠ d.toNat) : c ≠ d :=
  fun hc => h (by rw [hc])

theorem hexVal_hexDigit : ∀ k, k < 16 → hexVal (hexDigit k) = some k := by decide

theorem parseHex4_hex4 {n : Nat} (hn : n < 0x10000) (r : List Char) :
    parseHex4 (hex4 n ++ r) = some (n, r) := by
  have h1 := hexVal_hexDigit (n / 4096 % 16) (by omega)
  have h2 := hexVal_hexDigit (n / 256 % 16) (by omega)
  have h3 := hexVal_hexDigit (n / 16 % 16) (by omega)
  have h4 := hexVal_hexDigit (n % 16) (by omega)
  simp only [hex4, List.cons_append, List.nil_append, parseHex4, h1, h2, h3, h4]
  congr 1
  ext
  · omega
  · rfl

theorem isDigit_digitChar : ∀ k, k < 10 → (Char.ofNat (48 + k)).isDigit = true := by decide

theorem toNat_digitChar : ∀ k, k < 10 → (Char.ofNat (48 + k)).toNat = 48 + k := by decide

theorem natStrRevAux_congr : ∀ n f f', n < f → n < f' → natStrRevAux f n = natStrRevAux f' n := by
  intro n
  induction n using Nat.strong_induction_on with
  | _ n ih =>
    intro f f' hf hf'
    cases f with
    | zero => omega
    | succ g =>
      cases f' with
      | zero => omega
      | succ g' =>
        simp only [natStrRevAux]
        by_cases h10 : n < 10
        · rw [if_pos h10, if_pos h10]
        · rw [if_neg h10, if_neg h10]
          have hdiv : n / 10 < n := Nat.div_lt_self (by omega) (by omega)
          rw [ih (n / 10) hdiv g g' (by omega) (by omega)]

theorem natStrRev_eq (n : Nat) :
    natStrRev n = if n < 10 then [Char.ofNat (48 + n)]
      else Char.ofNat (48 + n % 10) :: natStrRev (n / 10) := by
  show natStrRevAux (n + 1) n = _
  obtain ⟨g, hg⟩ : ∃ g, n + 1 = g + 1 := ⟨n, rfl⟩
  rw [hg]
  simp only [natStrRevAux]
  by_cases h10 : n < 10
  · rw [if_pos h10, if_pos h10]
  · rw [if_neg h10, if_neg h10]
    have hdiv : n / 10 < n := Nat.div_lt_self (by omega) (by omega)
    rw [natStrRevAux_congr (n / 10) g (n / 10 + 1) (by omega) (by omega)]
    rfl

theorem natStr_eq (n : Nat) :
    natStr n = if n < 10 then [Char.ofNat (48 + n)]
      else natStr (n / 10) ++ [Char.ofNat (48 + n % 10)] := by
  show (natStrRev n).reverse = _
  rw [natStrRev_eq]
  by_cases h10 : n < 10
  · rw [if_pos h10, if_pos h10]
    rfl
  · rw [if_neg h10, if_neg h10]
    simp [natStr]

theorem natStr_head : ∀ n : Nat, ∃ c cs, natStr n = c :: cs ∧ c.isDigit = true := by
  intro n
  induction n using Nat.strong_induction_on with
  | _ n ih =>
    rw [natStr_eq]
    by_cases h10 : n < 10
    · rw [if_pos h10]
      exact ⟨_, [], rfl, by
        have := isDigit_digitChar n h10
        exact this⟩
    · rw [if_neg h10]
      have hdiv : n / 10 < n := Nat.div_lt_self (by omega) (by omega)
      obtain ⟨c, cs, hstr, hdig⟩ := ih (n / 10) hdiv
      exact ⟨c, cs ++ [Char.ofNat (48 + n % 10)], by rw [hstr]; rfl, hdig⟩

theorem parseDigits_natStr : ∀ n acc rest,
    parseDigits acc (natStr n ++ rest)
      = parseDigits (acc * 10 ^ (natStr n).length + n) rest := by
  intro n
  induction n using Nat.strong_induction_on with
  | _ n ih =>
    intro acc rest
    by_cases h10 : n < 10
    · rw [natStr_eq, if_pos h10]
      simp only [List.cons_append, List.nil_append, parseDigits, List.length_cons,
        List.length_nil]
      rw [if_pos (isDigit_digitChar n h10), toNat_digitChar n h10]
      congr 1
      simp
    · conv_lhs => rw [natStr_eq, if_neg h10]
      conv_rhs => rw [natStr_eq, if_neg h10]
      have hdiv : n / 10 < n := Nat.div_lt_self (by omega) (by omega)
      rw [List.append_assoc, ih (n / 10) hdiv acc, List.cons_append, List.nil_append]
      simp only [parseDigits]
      rw [if_pos (isDigit_digitChar (n % 10) (by omega)), toNat_digitChar (n % 10) (by omega)]
      congr 1
      simp only [List.length_append, List.length_cons, List.length_nil, pow_succ]
      generalize 10 ^ (natStr (n / 10)).length = P
      ring_nf
      omega

theorem skipWs_of_headOk {t : List Char} (h : headOk t = true) : skipWs t = t := by
  cases t with
  | nil => simp [headOk] at h
  | cons c r =>
    simp only [headOk, Bool.or_eq_true, decide_eq_true_eq] at h
    have hws : isJsonWs c = false := by
      rcases h with ((((((h | h) | h) | h) | h) | h) | h) | h
      all_goals try (subst h; decide)
      have hb := isDigit_toNat h
      have h1 : c ≠ ' ' := ne_of_toNat_ne (by rw [show (' ' : Char).toNat = 32 from rfl]; omega)
      have h2 : c ≠ '\t' := ne_of_toNat_ne (by rw [show ('\t' : Char).toNat = 9 from rfl]; omega)
      have h3 : c ≠ '\n' := ne_of_toNat_ne (by rw [show ('\n' : Char).toNat = 10 from rfl]; omega)
      have h4 : c ≠ '\r' := ne_of_toNat_ne (by rw [show ('\r' : Char).toNat = 13 from rfl]; omega)
      simp [isJsonWs, h1, h2, h3, h4]
    simp [skipWs, hws]

theorem skipWs_space (t : List Char) : skipWs (' ' :: t) = skipWs t := by
  simp [skipWs, isJsonWs]

theorem restOk_cases {c : Char} {t : List Char} (h : restOk (c :: t) = true) :
    c = ',' ∨ c = ']' ∨ c = '\x7d' := by
  simpa [restOk, or_assoc] using h

theorem parseDigits_restOk {rest : List Char} (h : restOk rest = true) (acc : Nat) :
    parseDigits acc rest = (acc, rest) := by
  cases rest with
  | nil => rfl
  | cons c t =>
    have hc := restOk_cases h
    have hd : c.isDigit = false := by
      rcases hc with hc | hc | hc <;> subst hc <;> decide
    simp [parseDigits, hd]

theorem parseNatNum_natStr (n : Nat) (rest : List Char) (h : restOk rest = true) :
    parseNatNum (natStr n ++ rest) = some (n, rest) := by
  obtain ⟨c, cs, hstr, hdig⟩ := natStr_head n
  have hp : parseDigits (c.toNat - 48) (cs ++ rest) = (n, rest) := by
    have h0 : parseDigits 0 (natStr n ++ rest) = (n, rest) := by
      rw [parseDigits_natStr, parseDigits_restOk h]
      simp
    rw [hstr, List.cons_append] at h0
    rw [show parseDigits 0 (c :: (cs ++ rest))
        = parseDigits (0 * 10 + (c.toNat - 48)) (cs ++ rest) by simp [parseDigits, hdig]] at h0
    simpa using h0
  rw [hstr, List.cons_append]
  simp only [parseNatNum, hdig, if_pos, hp]
  cases rest with
  | nil => rfl
  | cons c₂ t =>
    have hc₂ := restOk_cases h
    have hne : ¬(c₂ = '.' ∨ c₂ = 'e' ∨ c₂ = 'E') := by
      rcases hc₂ with hc | hc | hc <;> subst hc <;> decide
    simp [hne]

theorem isDigit_ne_dash {c : Char} (h : c.isDigit = true) : c ≠ '-' := by
  intro hc
  subst hc
  simp [Char.isDigit] at h

theorem parseNumber_intStr (n : Int) (rest : List Char) (h : restOk rest = true) :
    parseNumber (intStr n ++ rest) = some (.pyint n, rest) := by
  cases n with
  | ofNat m =>
    obtain ⟨c, cs, hstr, hdig⟩ := natStr_head m
    show parseNumber (natStr m ++ rest) = _
    rw [hstr, List.cons_append]
    simp only [parseNumber, isDigit_ne_dash hdig, if_neg, if_false]
    rw [← List.cons_append, ← hstr, parseNatNum_natStr m rest h]
    rfl
  | negSucc m =>
    show parseNumber ('-' :: (natStr (m + 1) ++ rest)) = _
    simp only [parseNumber, if_pos]
    rw [parseNatNum_natStr (m + 1) rest h]
    show some ((PyVal.pyint (-((m + 1 : Nat) : Int)), rest)) = some ((PyVal.pyint (Int.negSucc m), rest))
    have hns : (-((m + 1 : Nat) : Int)) = Int.negSucc m := by
      rw [Int.negSucc_eq]
      omega
    rw [hns]

/-- Folding freshly keyed pairs into an empty dict reproduces them. -/
theorem foldl_insertPair (kvs : List (String × PyVal)) :
    ∀ acc, (∀ kv ∈ kvs, ∀ p ∈ acc, p.1 ≠ kv.1) → (kvs.map Prod.fst).Nodup →
      kvs.foldl insertPair acc = acc ++ kvs := by
  induction kvs with
  | nil => intro acc _ _; simp
  | cons kv kvs ih =>
    intro acc hdisj hnodup
    have hany : (acc.any fun p => p.1 = kv.1) = false := by
      rw [List.any_eq_false]
      intro p hp
      simpa using hdisj kv (List.mem_cons_self kv kvs) p hp
    have hins : insertPair acc kv = acc ++ [kv] := by
      simp [insertPair, hany]
    rw [List.foldl_cons, hins]
    rw [List.map_cons] at hnodup
    have hcons := List.nodup_cons.mp hnodup
    have hnodup' : (kvs.map Prod.fst).Nodup := hcons.2
    have hkey : kv.1 ∉ kvs.map Prod.fst := hcons.1
    rw [ih (acc ++ [kv]) ?_ hnodup']
    · simp
    · intro kv' hkv' p hp
      rcases List.mem_append.mp hp with hp | hp
      · exact hdisj kv' (List.mem_cons_of_mem kv hkv') p hp
      · have hpkv : p = kv := by simpa using hp
        subst hpkv
        intro hc
        exact hkey (by
          rw [hc]
          exact List.mem_map_of_mem Prod.fst hkv')


/-! Step lemmas for `parseStringBody` on the head shapes the encoder
emits. -/

theorem psb_raw {c : Char} (h1 : ¬c = '"') (h2 : ¬c = '\\') (h3 : ¬c.toNat < 0x20)
    {g : Nat} {t : List Char} {l' : List Char} {r' : List Char}
    (hrec : parseStringBody g t = some (l', r')) :
    parseStringBody (g + 1) (c :: t) = some (c :: l', r') := by
  simp [parseStringBody, h1, h2, h3, hrec]

theorem psb_esc_quote {g : Nat} {t l' r'} (hrec : parseStringBody g t = some (l', r')) :
    parseStringBody (g + 1) ('\\' :: '"' :: t) = some ('"' :: l', r') := by
  simp [parseStringBody, hrec]

theorem psb_esc_backslash {g : Nat} {t l' r'} (hrec : parseStringBody g t = some (l', r')) :
    parseStringBody (g + 1) ('\\' :: '\\' :: t) = some ('\\' :: l', r') := by
  simp [parseStringBody, hrec]

theorem psb_esc_b {g : Nat} {t l' r'} (hrec : parseStringBody g t = some (l', r')) :
    parseStringBody (g + 1) ('\\' :: 'b' :: t) = some ('\x08' :: l', r') := by
  simp [parseStringBody, hrec]

theorem psb_esc_f {g : Nat} {t l' r'} (hrec : parseStringBody g t = some (l', r')) :
    parseStringBody (g + 1) ('\\' :: 'f' :: t) = some ('\x0c' :: l', r') := by
  simp [parseStringBody, hrec]

theorem psb_esc_n {g : Nat} {t l' r'} (hrec : parseStringBody g t = some (l', r')) :
    parseStringBody (g + 1) ('\\' :: 'n' :: t) = some ('\n' :: l', r') := by
  simp [parseStringBody, hrec]

theorem psb_esc_r {g : Nat} {t l' r'} (hrec : parseStringBody g t = some (l', r')) :
    parseStringBody (g + 1) ('\\' :: 'r' :: t) = some ('\r' :: l', r') := by
  simp [parseStringBody, hrec]

theorem psb_esc_t {g : Nat} {t l' r'} (hrec : parseStringBody g t = some (l', r')) :
    parseStringBody (g + 1) ('\\' :: 't' :: t) = some ('\t' :: l', r') := by
  simp [parseStringBody, hrec]

theorem psb_u_plain (n : Nat) (hn : n < 0x10000)
    (h1 : ¬(0xd800 ≤ n ∧ n ≤ 0xdbff)) (h2 : ¬(0xdc00 ≤ n ∧ n ≤ 0xdfff))
    {g : Nat} {t l' r'} (hrec : parseStringBody g t = some (l', r')) :
    parseStringBody (g + 1) ('\\' :: 'u' :: (hex4 n ++ t))
      = some (Char.ofNat n :: l', r') := by
  simp [parseStringBody, parseHex4_hex4 hn, h1, h2, hrec]

theorem psb_u_pair (n1 n2 : Nat) (hn1 : n1 < 0x10000) (hn2 : n2 < 0x10000)
    (h1 : 0xd800 ≤ n1 ∧ n1 ≤ 0xdbff) (h2 : 0xdc00 ≤ n2 ∧ n2 ≤ 0xdfff)
    {g : Nat} {t l' r'} (hrec : parseStringBody g t = some (l', r')) :
    parseStringBody (g + 1) ('\\' :: 'u' :: (hex4 n1 ++ ('\\' :: 'u' :: (hex4 n2 ++ t))))
      = some (Char.ofNat (0x10000 + ((n1 - 0xd800) <<< 10 ||| (n2 - 0xdc00))) :: l', r') := by
  simp [parseStringBody, parseHex4_hex4 hn1, parseHex4_hex4 hn2, h1, h2, hrec]

/-- Decoding inverts the ASCII-escaping encoder character by character. -/
theorem parseStringBody_roundtrip :
    ∀ (l : List Char) (f : Nat) (rest : List Char), l.length < f →
      parseStringBody f (concatMap escapeCharAscii l ++ '"' :: rest) = some (l, rest) := by
  intro l
  induction l with
  | nil =>
    intro f rest hf
    obtain ⟨g, rfl⟩ : ∃ g, f = g + 1 := ⟨f - 1, by omega⟩
    simp [concatMap, parseStringBody]
  | cons c l ih =>
    intro f rest hf
    obtain ⟨g, rfl⟩ : ∃ g, f = g + 1 := ⟨f - 1, by omega⟩
    have ihg : parseStringBody g (concatMap escapeCharAscii l ++ '"' :: rest) = some (l, rest) :=
      ih g rest (by simp at hf; omega)
    rw [show concatMap escapeCharAscii (c :: l)
      = escapeCharAscii c ++ concatMap escapeCharAscii l from rfl]
    by_cases hnb : c = '\\'
    · subst hnb
      rw [show escapeCharAscii '\\' = ['\\', '\\'] from rfl]
      simp only [List.cons_append, List.nil_append]
      exact psb_esc_backslash ihg
    · by_cases hnq : c = '"'
      · subst hnq
        rw [show escapeCharAscii '"' = ['\\', '"'] from rfl]
        simp only [List.cons_append, List.nil_append]
        exact psb_esc_quote ihg
      · have hbq : ¬(c = '\\' ∨ c = '"') := by simp [hnb, hnq]
        by_cases hpr : 0x20 ≤ c.toNat ∧ c.toNat ≤ 0x7e
        · rw [show escapeCharAscii c = [c] by
            unfold escapeCharAscii; rw [if_neg hbq, if_pos hpr]]
          simp only [List.cons_append, List.nil_append]
          exact psb_raw hnq hnb (by omega) ihg
        · by_cases hctl : c.toNat < 0x20
          · rw [show escapeCharAscii c = escapeDct c by
              unfold escapeCharAscii; rw [if_neg hbq, if_neg hpr, if_pos hctl]]
            by_cases h08 : c = '\x08'
            · subst h08
              rw [show escapeDct '\x08' = ['\\', 'b'] from rfl]
              simp only [List.cons_append, List.nil_append]
              exact psb_esc_b ihg
            · by_cases h0c : c = '\x0c'
              · subst h0c
                rw [show escapeDct '\x0c' = ['\\', 'f'] from rfl]
                simp only [List.cons_append, List.nil_append]
                exact psb_esc_f ihg
              · by_cases h0a : c = '\n'
                · subst h0a
                  rw [show escapeDct '\n' = ['\\', 'n'] from rfl]
                  simp only [List.cons_append, List.nil_append]
                  exact psb_esc_n ihg
                · by_cases h0d : c = '\r'
                  · subst h0d
                    rw [show escapeDct '\r' = ['\\', 'r'] from rfl]
                    simp only [List.cons_append, List.nil_append]
                    exact psb_esc_r ihg
                  · by_cases h09 : c = '\t'
                    · subst h09
                      rw [show escapeDct '\t' = ['\\', 't'] from rfl]
                      simp only [List.cons_append, List.nil_append]
                      exact psb_esc_t ihg
                    · rw [show escapeDct c = '\\' :: 'u' :: hex4 c.toNat by
                        unfold escapeDct
                        rw [if_neg hnb, if_neg hnq, if_neg h08, if_neg h0c, if_neg h0a,
                          if_neg h0d, if_neg h09]]
                      simp only [List.cons_append, List.nil_append, List.append_assoc]
                      have ha : c.toNat < 0x10000 := by omega
                      have hb : ¬(0xd800 ≤ c.toNat ∧ c.toNat ≤ 0xdbff) := by omega
                      have hc : ¬(0xdc00 ≤ c.toNat ∧ c.toNat ≤ 0xdfff) := by omega
                      have hres := psb_u_plain c.toNat ha hb hc ihg
                      rw [Char.ofNat_toNat] at hres
                      exact hres
          · by_cases hbmp : c.toNat < 0x10000
            · have hval := char_toNat_valid c
              rw [show escapeCharAscii c = '\\' :: 'u' :: hex4 c.toNat by
                unfold escapeCharAscii
                rw [if_neg hbq, if_neg hpr, if_neg hctl, if_pos hbmp]]
              simp only [List.cons_append, List.nil_append, List.append_assoc]
              have hb : ¬(0xd800 ≤ c.toNat ∧ c.toNat ≤ 0xdbff) := by
                rcases hval with h | h <;> omega
              have hc : ¬(0xdc00 ≤ c.toNat ∧ c.toNat ≤ 0xdfff) := by
                rcases hval with h | h <;> omega
              have hres := psb_u_plain c.toNat hbmp hb hc ihg
              rw [Char.ofNat_toNat] at hres
              exact hres
            · have hval := char_toNat_valid c
              have hup : c.toNat < 0x110000 := by rcases hval with h | h <;> omega
              have hnlt : c.toNat - 0x10000 < 0x100000 := by omega
              have e1 : (c.toNat - 0x10000) >>> 10 &&& 0x3ff = (c.toNat - 0x10000) / 1024 := by
                rw [Nat.shiftRight_eq_div_pow, and_1023_eq]
                norm_num
                omega
              have hd1 : (c.toNat - 0x10000) / 1024 < 1024 := by omega
              have hd2 : (c.toNat - 0x10000) % 1024 < 1024 := by omega
              rw [show escapeCharAscii c
                  = ('\\' :: 'u' :: hex4 (0xd800 + (c.toNat - 0x10000) / 1024))
                    ++ ('\\' :: 'u' :: hex4 (0xdc00 + (c.toNat - 0x10000) % 1024)) by
                unfold escapeCharAscii
                rw [if_neg hbq, if_neg hpr, if_neg hctl, if_neg hbmp]
                rw [e1, and_1023_eq, lor_d800 hd1, lor_dc00 hd2]]
              simp only [List.cons_append, List.nil_append, List.append_assoc]
              have hlt1 : 0xd800 + (c.toNat - 0x10000) / 1024 < 0x10000 := by omega
              have hlt2 : 0xdc00 + (c.toNat - 0x10000) % 1024 < 0x10000 := by omega
              have hsr1 : 0xd800 ≤ 0xd800 + (c.toNat - 0x10000) / 1024
                  ∧ 0xd800 + (c.toNat - 0x10000) / 1024 ≤ 0xdbff := by omega
              have hsr2 : 0xdc00 ≤ 0xdc00 + (c.toNat - 0x10000) % 1024
                  ∧ 0xdc00 + (c.toNat - 0x10000) % 1024 ≤ 0xdfff := by omega
              have hres := psb_u_pair (0xd800 + (c.toNat - 0x10000) / 1024)
                (0xdc00 + (c.toNat - 0x10000) % 1024) hlt1 hlt2 hsr1 hsr2 ihg
              have harith : (0x10000 : Nat) + ((0xd800 + (c.toNat - 0x10000) / 1024 - 0xd800) <<< 10
                  ||| (0xdc00 + (c.toNat - 0x10000) % 1024 - 0xdc00)) = c.toNat := by
                have hsub1 : 0xd800 + (c.toNat - 0x10000) / 1024 - 0xd800
                    = (c.toNat - 0x10000) / 1024 := by omega
                have hsub2 : 0xdc00 + (c.toNat - 0x10000) % 1024 - 0xdc00
                    = (c.toNat - 0x10000) % 1024 := by omega
                rw [hsub1, hsub2, shiftLeft_lor_eq hd2]
                omega
              rw [harith, Char.ofNat_toNat] at hres
              exact hres

/-! ### The default-option encoder output parses back to the value -/

theorem resolveOpts_default : resolveOpts { cls := some .JsonEncoder } = defaultOpts := rfl

theorem stringMk_data (s : String) : String.mk s.data = s := rfl

theorem escapeDct_length_pos (c : Char) : 1 ≤ (escapeDct c).length := by
  unfold escapeDct
  split_ifs <;> simp [hex4]

theorem escapeCharAscii_length_pos (c : Char) : 1 ≤ (escapeCharAscii c).length := by
  unfold escapeCharAscii
  split_ifs
  · exact escapeDct_length_pos c
  · simp
  · exact escapeDct_length_pos c
  · simp [hex4]
  · simp [hex4]

theorem concatMap_length_ge (l : List Char) :
    l.length ≤ (concatMap escapeCharAscii l).length := by
  induction l with
  | nil => simp [concatMap]
  | cons c cs ih =>
    have := escapeCharAscii_length_pos c
    simp only [concatMap, List.length_append, List.length_cons]
    omega

theorem headOk_append {a b : List Char} (h : headOk a = true) : headOk (a ++ b) = true := by
  cases a with
  | nil => simp [headOk] at h
  | cons c t => exact h

theorem headOk_pos {a : List Char} (h : headOk a = true) : 1 ≤ a.length := by
  cases a with
  | nil => simp [headOk] at h
  | cons c t => simp

theorem headOk_not_close {c : Char} {t : List Char} (h : headOk (c :: t) = true) :
    c ≠ ']' ∧ c ≠ '\x7d' := by
  simp only [headOk, Bool.or_eq_true, decide_eq_true_eq] at h
  rcases h with ((((((h | h) | h) | h) | h) | h) | h) | h
  all_goals try (subst h; exact ⟨by decide, by decide⟩)
  have hb := isDigit_toNat h
  exact ⟨ne_of_toNat_ne (by rw [show (']' : Char).toNat = 93 from rfl]; omega),
    ne_of_toNat_ne (by rw [show ('\x7d' : Char).toNat = 125 from rfl]; omega)⟩

theorem skipWs_cons_of_not_ws {c : Char} (h : isJsonWs c = false) (t : List Char) :
    skipWs (c :: t) = c :: t := by
  simp [skipWs, h]

theorem headOk_intStr (n : Int) : headOk (intStr n) = true := by
  cases n with
  | ofNat m =>
    obtain ⟨c, cs, hstr, hdig⟩ := natStr_head m
    show headOk (natStr m) = true
    rw [hstr]
    simp [headOk, hdig]
  | negSucc m =>
    show headOk ('-' :: natStr (m + 1)) = true
    simp [headOk]

theorem intStr_head (n : Int) :
    ∃ c cs, intStr n = c :: cs ∧ (c.isDigit = true ∨ c = '-') := by
  cases n with
  | ofNat m =>
    obtain ⟨c, cs, hstr, hdig⟩ := natStr_head m
    exact ⟨c, cs, hstr, Or.inl hdig⟩
  | negSucc m => exact ⟨'-', natStr (m + 1), rfl, Or.inr rfl⟩

theorem digit_not_keyhead {c : Char} (h : c.isDigit = true) :
    c ≠ 'n' ∧ c ≠ 't' ∧ c ≠ 'f' ∧ c ≠ '"' ∧ c ≠ '[' ∧ c ≠ '\x7b' := by
  have hb := isDigit_toNat h
  refine ⟨ne_of_toNat_ne ?_, ne_of_toNat_ne ?_, ne_of_toNat_ne ?_, ne_of_toNat_ne ?_,
    ne_of_toNat_ne ?_, ne_of_toNat_ne ?_⟩
  · rw [show ('n' : Char).toNat = 110 from rfl]; omega
  · rw [show ('t' : Char).toNat = 116 from rfl]; omega
  · rw [show ('f' : Char).toNat = 102 from rfl]; omega
  · rw [show ('"' : Char).toNat = 34 from rfl]; omega
  · rw [show ('[' : Char).toNat = 91 from rfl]; omega
  · rw [show ('\x7b' : Char).toNat = 123 from rfl]; omega

theorem pv_null (g : Nat) (r : List Char) :
    parseValue (g + 1) ('n' :: 'u' :: 'l' :: 'l' :: r) = some (.pynone, r) := by
  simp [parseValue]

theorem pv_true (g : Nat) (r : List Char) :
    parseValue (g + 1) ('t' :: 'r' :: 'u' :: 'e' :: r) = some (.pybool true, r) := by
  simp [parseValue]

theorem pv_false (g : Nat) (r : List Char) :
    parseValue (g + 1) ('f' :: 'a' :: 'l' :: 's' :: 'e' :: r) = some (.pybool false, r) := by
  simp [parseValue]

theorem pv_empty_list (g : Nat) (r : List Char) :
    parseValue (g + 1) ('[' :: ']' :: r) = some (.pylist [], r) := by
  simp [parseValue, skipWs, isJsonWs]

theorem pv_empty_dict (g : Nat) (r : List Char) :
    parseValue (g + 1) ('\x7b' :: '\x7d' :: r) = some (.pydict [], r) := by
  simp [parseValue, skipWs, isJsonWs]

theorem parseValue_number_head {c : Char} (hc : c.isDigit = true ∨ c = '-') (g : Nat)
    (r : List Char) : parseValue (g + 1) (c :: r) = parseNumber (c :: r) := by
  rcases hc with h | h
  · obtain ⟨h1, h2, h3, h4, h5, h6⟩ := digit_not_keyhead h
    simp [parseValue, h1, h2, h3, h4, h5, h6, h]
  · subst h
    simp [parseValue]

theorem pv_number (n : Int) (g : Nat) (rest : List Char) (h : restOk rest = true) :
    parseValue (g + 1) (intStr n ++ rest) = some (.pyint n, rest) := by
  obtain ⟨c, cs, hstr, hc⟩ := intStr_head n
  rw [hstr, List.cons_append, parseValue_number_head hc, ← List.cons_append, ← hstr,
    parseNumber_intStr n rest h]

theorem pv_string (g : Nat) (s : String) (rest : List Char) (hlen : s.data.length < g) :
    parseValue (g + 1) (encodeBasestring true s ++ rest) = some (.pystr s, rest) := by
  have hsb := parseStringBody_roundtrip s.data g rest hlen
  simp only [encodeBasestring, List.cons_append, List.append_assoc, List.singleton_append]
  simp [parseValue, hsb, stringMk_data]

theorem pv_list_nonempty {g : Nat} {items rest : List Char} {xs : List PyVal}
    (hh : headOk items = true)
    (hp : parseArrayItems g (items ++ ']' :: rest) = some (xs, rest)) :
    parseValue (g + 1) ('[' :: (items ++ ']' :: rest)) = some (.pylist xs, rest) := by
  cases items with
  | nil => simp [headOk] at hh
  | cons c2 r2 =>
    obtain ⟨hc2r, _⟩ := headOk_not_close hh
    have hsw : skipWs ((c2 :: r2) ++ ']' :: rest) = (c2 :: r2) ++ ']' :: rest :=
      skipWs_of_headOk (headOk_append hh)
    rw [List.cons_append] at hsw hp
    simp [parseValue, hsw, hc2r, hp]

theorem pv_dict_nonempty {g : Nat} {items rest : List Char} {kvs : List (String × PyVal)}
    (hh : headOk items = true)
    (hp : parseObjectItems g (items ++ '\x7d' :: rest) = some (kvs, rest)) :
    parseValue (g + 1) ('\x7b' :: (items ++ '\x7d' :: rest))
      = some (.pydict (kvs.foldl insertPair []), rest) := by
  cases items with
  | nil => simp [headOk] at hh
  | cons c2 r2 =>
    obtain ⟨_, hc2b⟩ := headOk_not_close hh
    have hsw : skipWs ((c2 :: r2) ++ '\x7d' :: rest) = (c2 :: r2) ++ '\x7d' :: rest :=
      skipWs_of_headOk (headOk_append hh)
    rw [List.cons_append] at hsw hp
    simp [parseValue, hsw, hc2b, hp]

theorem encodeBasestring_true (s : String) :
    encodeBasestring true s = '"' :: (concatMap escapeCharAscii s.data ++ ['"']) := rfl

/-- Main round trip: any successful default-option encoding of a
natively representable value parses back to exactly that value (with
the stated fuel slack), and the emitted text starts with a value head.
Stated simultaneously for values, array element lists and object entry
lists over the encoder fuel. -/
theorem encode_parse_roundtrip (hook : Nat → Except PyErr PyVal) : ∀ fuel : Nat,
    (∀ v ms lvl out, WFNative v → encodeVal hook defaultOpts fuel ms lvl v = .ok out →
      headOk out = true ∧
      ∀ pf rest, out.length < pf → restOk rest = true →
        parseValue pf (out ++ rest) = some (v, rest))
    ∧ (∀ xs ms lvl parts, (∀ x ∈ xs, WFNative x) → xs ≠ [] →
      encodeList hook defaultOpts fuel ms lvl xs = .ok parts →
      headOk (joinSep [',', ' '] parts) = true ∧
      ∀ pf rest, (joinSep [',', ' '] parts).length + 1 < pf →
        parseArrayItems pf (joinSep [',', ' '] parts ++ ']' :: rest) = some (xs, rest))
    ∧ (∀ kvs ms lvl parts, (∀ kv ∈ kvs, WFNative kv.2) → kvs ≠ [] →
      encodeDict hook defaultOpts fuel ms lvl kvs = .ok parts →
      headOk (joinSep [',', ' '] parts) = true ∧
      ∀ pf rest, (joinSep [',', ' '] parts).length + 1 < pf →
        parseObjectItems pf (joinSep [',', ' '] parts ++ '\x7d' :: rest) = some (kvs, rest)) := by
  intro fuel
  induction fuel with
  | zero =>
    refine ⟨fun v ms lvl out _ hok => ?_, fun xs ms lvl parts _ _ hok => ?_,
      fun kvs ms lvl parts _ _ hok => ?_⟩
    · simp only [encodeVal] at hok; exact absurd hok (by simp)
    · simp only [encodeList] at hok; exact absurd hok (by simp)
    · simp only [encodeDict] at hok; exact absurd hok (by simp)
  | succ fuel ih =>
    refine ⟨fun v ms lvl out hv hok => ?_, fun xs ms lvl parts hxs hne hok => ?_,
      fun kvs ms lvl parts hkvs hne hok => ?_⟩
    · cases v with
      | pynone =>
        simp only [encodeVal, Except.ok.injEq] at hok
        subst hok
        refine ⟨by decide, fun pf rest hpf hrest => ?_⟩
        obtain ⟨g, rfl⟩ : ∃ g, pf = g + 1 := ⟨pf - 1, by omega⟩
        simpa using pv_null g rest
      | pybool b =>
        cases b with
        | true =>
          simp only [encodeVal, Except.ok.injEq] at hok
          subst hok
          refine ⟨by decide, fun pf rest hpf hrest => ?_⟩
          obtain ⟨g, rfl⟩ : ∃ g, pf = g + 1 := ⟨pf - 1, by omega⟩
          simpa using pv_true g rest
        | false =>
          simp only [encodeVal, Except.ok.injEq] at hok
          subst hok
          refine ⟨by decide, fun pf rest hpf hrest => ?_⟩
          obtain ⟨g, rfl⟩ : ∃ g, pf = g + 1 := ⟨pf - 1, by omega⟩
          simpa using pv_false g rest
      | pyint n =>
        simp only [encodeVal, Except.ok.injEq] at hok
        subst hok
        refine ⟨headOk_intStr n, fun pf rest hpf hrest => ?_⟩
        obtain ⟨g, rfl⟩ : ∃ g, pf = g + 1 := ⟨pf - 1, by omega⟩
        exact pv_number n g rest hrest
      | pystr s =>
        simp only [encodeVal, Except.ok.injEq] at hok
        rw [show defaultOpts.ensure_ascii = true from rfl] at hok
        subst hok
        refine ⟨by rw [encodeBasestring_true]; rfl, fun pf rest hpf hrest => ?_⟩
        obtain ⟨g, rfl⟩ : ∃ g, pf = g + 1 := ⟨pf - 1, by omega⟩
        have hkd := concatMap_length_ge s.data
        rw [encodeBasestring_true] at hpf
        simp only [List.length_cons, List.length_append, List.length_nil] at hpf
        exact pv_string g s rest (by omega)
      | pylist xs =>
        cases xs with
        | nil =>
          simp [encodeVal] at hok
          subst hok
          refine ⟨by decide, fun pf rest hpf hrest => ?_⟩
          obtain ⟨g, rfl⟩ : ∃ g, pf = g + 1 := ⟨pf - 1, by omega⟩
          simpa using pv_empty_list g rest
        | cons x₀ xs₀ =>
          simp only [encodeVal] at hok
          have hxe : ¬(((x₀ :: xs₀ : List PyVal).isEmpty) = true) := by simp
          rw [if_neg hxe] at hok
          rw [show (if defaultOpts.indent.isSome then lvl + 1 else lvl) = lvl from rfl] at hok
          cases heq : encodeList hook defaultOpts fuel ms lvl (x₀ :: xs₀) with
          | error e => rw [heq] at hok; exact absurd hok (by simp)
          | ok parts =>
            rw [heq] at hok
            simp only [Except.ok.injEq] at hok
            rw [show nlIndent defaultOpts lvl = ([] : List Char) from rfl,
              show defaultOpts.itemSeparator = [',', ' '] from rfl] at hok
            simp only [List.append_nil, List.nil_append, List.cons_append] at hok
            subst hok
            have hmem : ∀ x ∈ x₀ :: xs₀, WFNative x := by
              cases hv with | wlist _ h => exact h
            obtain ⟨hQh, hQp⟩ := ih.2.1 (x₀ :: xs₀) ms lvl parts hmem (by simp) heq
            refine ⟨rfl, fun pf rest hpf hrest => ?_⟩
            obtain ⟨g, rfl⟩ : ∃ g, pf = g + 1 := ⟨pf - 1, by omega⟩
            simp only [List.length_cons, List.length_append] at hpf
            have hrec := hQp g rest (by omega)
            have hthis := pv_list_nonempty hQh hrec
            simpa [List.append_assoc] using hthis
      | pydict kvs =>
        cases kvs with
        | nil =>
          simp [encodeVal] at hok
          subst hok
          refine ⟨by decide, fun pf rest hpf hrest => ?_⟩
          obtain ⟨g, rfl⟩ : ∃ g, pf = g + 1 := ⟨pf - 1, by omega⟩
          simpa using pv_empty_dict g rest
        | cons kv₀ kvs₀ =>
          simp only [encodeVal] at hok
          have hxe : ¬(((kv₀ :: kvs₀ : List (String × PyVal)).isEmpty) = true) := by simp
          rw [if_neg hxe] at hok
          rw [show (if defaultOpts.indent.isSome then lvl + 1 else lvl) = lvl from rfl] at hok
          rw [show (if defaultOpts.sort_keys then sortEntries (kv₀ :: kvs₀)
              else (kv₀ :: kvs₀)) = kv₀ :: kvs₀ from rfl] at hok
          cases heq : encodeDict hook defaultOpts fuel ms lvl (kv₀ :: kvs₀) with
          | error e => rw [heq] at hok; exact absurd hok (by simp)
          | ok parts =>
            rw [heq] at hok
            simp only [Except.ok.injEq] at hok
            rw [show nlIndent defaultOpts lvl = ([] : List Char) from rfl,
              show defaultOpts.itemSeparator = [',', ' '] from rfl] at hok
            simp only [List.append_nil, List.nil_append, List.cons_append] at hok
            subst hok
            obtain ⟨hnd, hm⟩ : ((kv₀ :: kvs₀).map Prod.fst).Nodup
                ∧ ∀ kv ∈ kv₀ :: kvs₀, WFNative kv.2 := by
              cases hv with | wdict _ h1 h2 => exact ⟨h1, h2⟩
            obtain ⟨hRh, hRp⟩ := ih.2.2 (kv₀ :: kvs₀) ms lvl parts hm (by simp) heq
            refine ⟨rfl, fun pf rest hpf hrest => ?_⟩
            obtain ⟨g, rfl⟩ : ∃ g, pf = g + 1 := ⟨pf - 1, by omega⟩
            simp only [List.length_cons, List.length_append] at hpf
            have hrec := hRp g rest (by omega)
            have hthis := pv_dict_nonempty hRh hrec
            rw [foldl_insertPair _ [] (fun kv _ p hp0 => by simp at hp0) hnd] at hthis
            simpa [List.append_assoc] using hthis
      | pyobj id => cases hv
    · cases xs with
      | nil => exact absurd rfl hne
      | cons x xs' =>
        simp only [encodeList] at hok
        cases heq : encodeVal hook defaultOpts fuel ms lvl x with
        | error e => rw [heq] at hok; exact absurd hok (by simp)
        | ok c =>
          rw [heq] at hok
          cases heq2 : encodeList hook defaultOpts fuel ms lvl xs' with
          | error e => rw [heq2] at hok; exact absurd hok (by simp)
          | ok cs =>
            rw [heq2] at hok
            simp only [Except.ok.injEq] at hok
            subst hok
            obtain ⟨hch, hcp⟩ := ih.1 x ms lvl c (hxs x (List.mem_cons_self x xs')) heq
            cases xs' with
            | nil =>
              have hcs : cs = [] := by
                cases fuel with
                | zero => simp [encodeList] at heq2
                | succ f => simpa [encodeList] using heq2.symm
              subst hcs
              refine ⟨by simpa [joinSep] using hch, fun pf rest hpf => ?_⟩
              obtain ⟨pa, rfl⟩ : ∃ pa, pf = pa + 1 := ⟨pf - 1, by omega⟩
              simp only [joinSep] at hpf ⊢
              have hpv := hcp pa (']' :: rest) (by omega) (by simp [restOk])
              simp [parseArrayItems, hpv, skipWs, isJsonWs]
            | cons x2 xs2 =>
              obtain ⟨hQh, hQp⟩ := ih.2.1 (x2 :: xs2) ms lvl cs
                (fun y hy => hxs y (List.mem_cons_of_mem x hy)) (by simp) heq2
              obtain ⟨chead, ctail, rfl⟩ : ∃ a b, cs = a :: b := by
                cases cs with
                | nil => simp [joinSep, headOk] at hQh
                | cons a b => exact ⟨a, b, rfl⟩
              refine ⟨?_, fun pf rest hpf => ?_⟩
              · simp only [joinSep]
                exact headOk_append (headOk_append hch)
              · obtain ⟨pa, rfl⟩ : ∃ pa, pf = pa + 1 := ⟨pf - 1, by omega⟩
                simp only [joinSep, List.length_append, List.length_cons,
                  List.length_nil] at hpf
                have hc1 := headOk_pos hch
                have hpv := hcp pa
                  (',' :: ' ' :: (joinSep [',', ' '] (chead :: ctail) ++ ']' :: rest))
                  (by omega) (by simp [restOk])
                have hsw2 : skipWs (joinSep [',', ' '] (chead :: ctail) ++ ']' :: rest)
                    = joinSep [',', ' '] (chead :: ctail) ++ ']' :: rest :=
                  skipWs_of_headOk (headOk_append hQh)
                have hrec := hQp pa rest (by omega)
                simp only [joinSep, List.append_assoc, List.cons_append, List.nil_append]
                simp [parseArrayItems, hpv, skipWs, isJsonWs, hsw2, hrec]
    · cases kvs with
      | nil => exact absurd rfl hne
      | cons kv₀ kvs' =>
        obtain ⟨k, v⟩ := kv₀
        simp only [encodeDict] at hok
        cases heq : encodeVal hook defaultOpts fuel ms lvl v with
        | error e => rw [heq] at hok; exact absurd hok (by simp)
        | ok c =>
          rw [heq] at hok
          cases heq2 : encodeDict hook defaultOpts fuel ms lvl kvs' with
          | error e => rw [heq2] at hok; exact absurd hok (by simp)
          | ok cs =>
            rw [heq2] at hok
            simp only [Except.ok.injEq] at hok
            rw [show defaultOpts.ensure_ascii = true from rfl,
              show defaultOpts.keySeparator = [':', ' '] from rfl] at hok
            subst hok
            obtain ⟨hch, hcp⟩ := ih.1 v ms lvl c
              (hkvs (k, v) (List.mem_cons_self (k, v) kvs')) heq
            cases kvs' with
            | nil =>
              have hcs : cs = [] := by
                cases fuel with
                | zero => simp [encodeDict] at heq2
                | succ f => simpa [encodeDict] using heq2.symm
              subst hcs
              refine ⟨?_, fun pf rest hpf => ?_⟩
              · simp only [joinSep]
                rw [encodeBasestring_true]
                simp only [List.cons_append, List.append_assoc]
                rfl
              · obtain ⟨po, rfl⟩ : ∃ po, pf = po + 1 := ⟨pf - 1, by omega⟩
                simp only [joinSep] at hpf ⊢
                rw [encodeBasestring_true] at hpf ⊢
                simp only [List.length_append, List.length_cons, List.length_nil] at hpf
                have hkd := concatMap_length_ge k.data
                have hsb := parseStringBody_roundtrip k.data po
                  (':' :: ' ' :: (c ++ '\x7d' :: rest)) (by omega)
                have hpv := hcp po ('\x7d' :: rest) (by omega) (by simp [restOk])
                have hswc : skipWs (c ++ '\x7d' :: rest) = c ++ '\x7d' :: rest :=
                  skipWs_of_headOk (headOk_append hch)
                simp only [List.cons_append, List.nil_append, List.append_assoc,
                  List.singleton_append]
                simp [parseObjectItems, hsb, skipWs, isJsonWs, hswc, hpv, stringMk_data]
            | cons kv2 kvs2 =>
              obtain ⟨hRh, hRp⟩ := ih.2.2 (kv2 :: kvs2) ms lvl cs
                (fun p hp => hkvs p (List.mem_cons_of_mem _ hp)) (by simp) heq2
              obtain ⟨chead, ctail, rfl⟩ : ∃ a b, cs = a :: b := by
                cases cs with
                | nil => simp [joinSep, headOk] at hRh
                | cons a b => exact ⟨a, b, rfl⟩
              refine ⟨?_, fun pf rest hpf => ?_⟩
              · simp only [joinSep]
                rw [encodeBasestring_true]
                simp only [List.cons_append, List.append_assoc]
                rfl
              · obtain ⟨po, rfl⟩ : ∃ po, pf = po + 1 := ⟨pf - 1, by omega⟩
                simp only [joinSep] at hpf ⊢
                rw [encodeBasestring_true] at hpf ⊢
                simp only [List.length_append, List.length_cons, List.length_nil] at hpf
                have hkd := concatMap_length_ge k.data
                have hc1 := headOk_pos hch
                have hsb := parseStringBody_roundtrip k.data po
                  (':' :: ' ' :: (c ++ ',' :: ' ' ::
                    (joinSep [',', ' '] (chead :: ctail) ++ '\x7d' :: rest))) (by omega)
                have hpv := hcp po
                  (',' :: ' ' :: (joinSep [',', ' '] (chead :: ctail) ++ '\x7d' :: rest))
                  (by omega) (by simp [restOk])
                have hswc : skipWs (c ++ ',' :: ' ' ::
                      (joinSep [',', ' '] (chead :: ctail) ++ '\x7d' :: rest))
                    = c ++ ',' :: ' ' ::
                      (joinSep [',', ' '] (chead :: ctail) ++ '\x7d' :: rest) :=
                  skipWs_of_headOk (headOk_append hch)
                have hsw2 : skipWs (joinSep [',', ' '] (chead :: ctail) ++ '\x7d' :: rest)
                    = joinSep [',', ' '] (chead :: ctail) ++ '\x7d' :: rest :=
                  skipWs_of_headOk (headOk_append hRh)
                have hrec := hRp po rest (by omega)
                simp only [List.cons_append, List.nil_append, List.append_assoc,
                  List.singleton_append]
                simp [parseObjectItems, hsb, skipWs, isJsonWs, hswc, hpv, hsw2, hrec,
                  stringMk_data]

theorem c5Val_wf : WFNative c5Val := by
  refine WFNative.wdict _ (by decide) ?_
  intro kv hkv
  simp only [c5Val, List.mem_cons, List.not_mem_nil, or_false] at hkv
  rcases hkv with h | h <;> subst h
  · exact WFNative.wint 1
  · refine WFNative.wlist _ ?_
    intro x hx
    simp only [List.mem_cons, List.not_mem_nil, or_false] at hx
    rcases hx with h | h | h | h <;> subst h
    · exact WFNative.wnone
    · exact WFNative.wbool true
    · exact WFNative.wstr "a"
    · exact WFNative.wint (-5)

/-- C5: round trip — for every natively representable value `v`, whenever
`json_dumps(v)` (no keyword arguments) succeeds with output `s`, the
standard JSON parse of `s` gives back exactly `v` under structural
equality: the wrapper does not alter the JSON grammar it emits. -/
theorem c5_parse_serialize_roundtrip (env : Env) (fuel : Nat) (v : PyVal) (s : String)
    (hv : WFNative v) (hok : json_dumps env fuel v {} = .ok s) :
    pyJsonLoads s = some v := by
  rw [json_dumps_eq env fuel v {} rfl] at hok
  rw [show resolveOpts ({} : Kwargs) = defaultOpts from rfl] at hok
  cases henc : encodeVal (JsonEncoder.defaultHook env) defaultOpts fuel [] 0 v with
  | error e => rw [henc] at hok; exact absurd hok (by simp)
  | ok cs =>
    rw [henc] at hok
    simp only [Except.ok.injEq] at hok
    subst hok
    obtain ⟨hh, hp⟩ := (encode_parse_roundtrip (JsonEncoder.defaultHook env) fuel).1
      v [] 0 cs hv henc
    have hparse := hp (cs.length + 1) [] (by omega) rfl
    rw [List.append_nil] at hparse
    simp only [pyJsonLoads]
    rw [skipWs_of_headOk hh, hparse]
    simp [skipWs]

theorem c5_witness :
    WFNative c5Val
    ∧ json_dumps envNoToJson 10 c5Val {}
        = .ok "\x7b\"x\": 1, \"y\": [null, true, \"a\", -5]\x7d"
    ∧ pyJsonLoads "\x7b\"x\": 1, \"y\": [null, true, \"a\", -5]\x7d" = some c5Val :=
  ⟨c5Val_wf, rfl,
    c5_parse_serialize_roundtrip envNoToJson 10 c5Val _ c5Val_wf rfl⟩
